import Mathlib

/-!
Shallow embedding of the `matching-engine` repository
(src/matching-engine/src/order.hpp, order_book.{hpp,cpp},
matching_engine.{hpp,cpp}).

Modelling conventions:
* `Price` and `Quantity` are C++ `double` in the source; all arithmetic
  performed on them is `+`, `-` (always guarded so it cannot go below zero),
  `min` and comparisons, so they are embedded as exact `Nat` values.
* `std::map<Price, LimitLevel, greater>` (bids) and `std::map<Price,
  LimitLevel>` (asks) are embedded as association lists kept in the map's
  iteration order: bids descending by price, asks ascending by price.
* `std::list<Order>::iterator` (the cursor stored in `order_index_`) is
  embedded as a node tag: every list node carries a `Nat` tag that is unique
  among live nodes (freshly allocated tags are strictly larger than every
  tag in the book, mirroring address stability of `std::list` nodes).
* `std::unordered_map<OrderID, iterator>` is an association list with unique
  keys; `operator[]` assignment replaces the value of an existing key in
  place and appends a fresh key at the end.
-/

/-- `enum class Side` from order.hpp. -/
inductive Side where
  | BUY
  | SELL
deriving DecidableEq, Repr

/-- `enum class OrderType` from order.hpp. -/
inductive OrderType where
  | MARKET
  | LIMIT
  | IOC
  | FOK
deriving DecidableEq, Repr

/-- `struct Order` from order.hpp (plus the `symbol` field that
matching_engine.cpp reads on every order; the spec's §3 data model lists it). -/
structure Order where
  id : String
  symbol : String
  side : Side
  type : OrderType
  price : Nat
  quantity : Nat
  remaining_quantity : Nat
  timestamp : Nat
deriving DecidableEq, Repr

/-- A node of a `std::list<Order>`: the stored order plus the tag that
models the node's stable address (the iterator target). -/
structure Node where
  tag : Nat
  ord : Order
deriving DecidableEq, Repr

/-- `struct LimitLevel` from order_book.hpp: FIFO queue plus the cached
`total_quantity`. -/
structure LimitLevel where
  orders : List Node
  total_quantity : Nat
deriving DecidableEq, Repr

/-- `class OrderBook` state: `bids_` (descending assoc list), `asks_`
(ascending assoc list), `order_index_` (id to node-tag assoc list). -/
structure OrderBook where
  bids : List (Nat × LimitLevel)
  asks : List (Nat × LimitLevel)
  order_index : List (String × Nat)
deriving DecidableEq, Repr

def OrderBook.empty : OrderBook := ⟨[], [], []⟩

/-- All list nodes resting in a side (in level-priority order, FIFO within
a level). -/
def sideNodes (s : List (Nat × LimitLevel)) : List Node :=
  (s.map (fun pl => pl.2.orders)).flatten

/-- All list nodes resting in the book. -/
def OrderBook.nodes (b : OrderBook) : List Node :=
  sideNodes b.bids ++ sideNodes b.asks

/-- A tag strictly larger than every live tag: models allocation of a fresh
`std::list` node. -/
def OrderBook.freshTag (b : OrderBook) : Nat :=
  (b.nodes.map Node.tag).foldr max 0 + 1

/-- Assoc-list lookup, as `std::map::find` / `std::unordered_map::find`. -/
def alistLookup (l : List (String × Nat)) (k : String) : Option Nat :=
  match l.find? (fun e => e.1 == k) with
  | some e => some e.2
  | none => none

/-- `order_index_[id] = it`: replace the value of an existing key in place,
otherwise append the new key. -/
def alistInsert (l : List (String × Nat)) (k : String) (v : Nat) :
    List (String × Nat) :=
  match l with
  | [] => [(k, v)]
  | e :: rest =>
    if e.1 == k then (k, v) :: rest else e :: alistInsert rest k v

/-- `order_index_.erase(it)`: remove the (unique) entry of a key. -/
def alistErase (l : List (String × Nat)) (k : String) : List (String × Nat) :=
  l.eraseP (fun e => e.1 == k)

/-- `side[price]` find-or-create followed by the add_order level mutation:
push the node at the FIFO tail and add `q` to the cached total.  `before a b`
decides whether price `a` sorts strictly before price `b` in this side's
iteration order. -/
def upsertLevel (before : Nat → Nat → Bool) (price : Nat) (n : Node) (q : Nat) :
    List (Nat × LimitLevel) → List (Nat × LimitLevel)
  | [] => [(price, ⟨[n], q⟩)]
  | (p, l) :: rest =>
    if p == price then
      (p, ⟨l.orders ++ [n], l.total_quantity + q⟩) :: rest
    else if before price p then
      (price, ⟨[n], q⟩) :: (p, l) :: rest
    else
      (p, l) :: upsertLevel before price n q rest

/-- `OrderBook::add_order` from order_book.cpp: find-or-create the level at
`(side, price)`, append at the FIFO tail, record the cursor in the index,
and add `remaining_quantity` to the cached level total. -/
def OrderBook.add_order (b : OrderBook) (o : Order) : OrderBook :=
  if o.side = Side.BUY then
    { b with
      bids := upsertLevel (fun a c => c < a) o.price ⟨b.freshTag, o⟩
        o.remaining_quantity b.bids
      order_index := alistInsert b.order_index o.id b.freshTag }
  else
    { b with
      asks := upsertLevel (fun a c => a < c) o.price ⟨b.freshTag, o⟩
        o.remaining_quantity b.asks
      order_index := alistInsert b.order_index o.id b.freshTag }

/-- Dereference a stored cursor: the order held by the node with this tag. -/
def OrderBook.derefTag (b : OrderBook) (t : Nat) : Option Order :=
  match b.nodes.find? (fun n => n.tag == t) with
  | some n => some n.ord
  | none => none

/-- The cancel_order level mutation on one side: subtract the order's
remaining quantity from the cached total, erase the node with tag `t` from
the FIFO list, and erase the level when its list became empty. -/
def removeNode (price t rem : Nat) :
    List (Nat × LimitLevel) → List (Nat × LimitLevel)
  | [] => []
  | (p, l) :: rest =>
    if p == price then
      let orders' := l.orders.eraseP (fun n => n.tag == t)
      if orders'.isEmpty then rest
      else (p, ⟨orders', l.total_quantity - rem⟩) :: rest
    else (p, l) :: removeNode price t rem rest

/-- `OrderBook::cancel_order` from order_book.cpp: look the id up in the
index (return `false` when absent), dereference the cursor, update the
level on the order's side, and erase the index entry. -/
def OrderBook.cancel_order (b : OrderBook) (order_id : String) :
    Bool × OrderBook :=
  match alistLookup b.order_index order_id with
  | none => (false, b)
  | some t =>
    match b.derefTag t with
    | none => (false, b)  -- dangling cursor: unreachable in reachable states
    | some o =>
      let b' :=
        if o.side = Side.BUY then
          { b with bids := removeNode o.price t o.remaining_quantity b.bids }
        else
          { b with asks := removeNode o.price t o.remaining_quantity b.asks }
      (true, { b' with order_index := alistErase b'.order_index order_id })

/-- `OrderBook::get_best_bid`: first key of the descending bid map. -/
def OrderBook.get_best_bid (b : OrderBook) : Option Nat :=
  match b.bids with
  | [] => none
  | (p, _) :: _ => some p

/-- `OrderBook::get_best_ask`: first key of the ascending ask map. -/
def OrderBook.get_best_ask (b : OrderBook) : Option Nat :=
  match b.asks with
  | [] => none
  | (p, _) :: _ => some p

/-- Assoc-list level lookup by price. -/
def levelLookup (s : List (Nat × LimitLevel)) (price : Nat) :
    Option LimitLevel :=
  match s.find? (fun pl => pl.1 == price) with
  | some pl => some pl.2
  | none => none

/-- `OrderBook::get_total_quantity`: the cached total at a level, `0` when
the level does not exist. -/
def OrderBook.get_total_quantity (b : OrderBook) (side : Side) (price : Nat) :
    Nat :=
  match levelLookup (if side = Side.BUY then b.bids else b.asks) price with
  | some l => l.total_quantity
  | none => 0

/-- `OrderBook::price_level_count`. -/
def OrderBook.price_level_count (b : OrderBook) (side : Side) : Nat :=
  if side = Side.BUY then b.bids.length else b.asks.length

/-- `OrderBook::get_orders_at_price`: the FIFO list at a level, `none` when
the level does not exist (the C++ null pointer). -/
def OrderBook.get_orders_at_price (b : OrderBook) (side : Side) (price : Nat) :
    Option (List Node) :=
  match levelLookup (if side = Side.BUY then b.bids else b.asks) price with
  | some l => some l.orders
  | none => none

/-- The range-with-break loop of get_available_liquidity: accumulate cached
totals while `keep price` holds, stop at the first level outside the limit. -/
def liquidityScan (keep : Nat → Bool) : List (Nat × LimitLevel) → Nat
  | [] => 0
  | (p, l) :: rest =>
    if keep p then l.total_quantity + liquidityScan keep rest else 0

/-- `OrderBook::get_available_liquidity` from order_book.cpp: for `SELL` it
walks the ascending ask levels while `price ≤ limit_price`; for `BUY` it
walks the descending bid levels while `price ≥ limit_price`. -/
def OrderBook.get_available_liquidity (b : OrderBook) (side : Side)
    (limit_price : Nat) : Nat :=
  if side = Side.SELL then
    liquidityScan (fun p => p ≤ limit_price) b.asks
  else
    liquidityScan (fun p => limit_price ≤ p) b.bids

/-- `struct Trade` from matching_engine.hpp. -/
structure Trade where
  trade_id : String
  symbol : String
  maker_order_id : String
  taker_order_id : String
  price : Nat
  quantity : Nat
  aggressor_side : Side
  timestamp : Nat
deriving DecidableEq, Repr

/-- `MatchingEngine` state: per-symbol books, trade history, trade counter. -/
structure MatchingEngine where
  order_books : List (String × OrderBook)
  trade_history : List Trade
  trade_counter : Nat
deriving Repr

/-- `MatchingEngine::MatchingEngine()`: the constructor pre-creates the
"BTC-USDT" book. -/
def MatchingEngine.mk0 : MatchingEngine :=
  ⟨[("BTC-USDT", OrderBook.empty)], [], 0⟩

/-- `oss << "T" << std::setw(4) << std::setfill('0') << n`: zero-pad the
decimal form of `n` on the left to a width of at least 4. -/
def fmtTradeId (n : Nat) : String :=
  let s := toString n
  if s.length < 4 then
    "T" ++ String.mk (List.replicate (4 - s.length) '0') ++ s
  else
    "T" ++ s

/-- Counter-side computation repeated in every match_* function. -/
def contra : Side → Side
  | Side.BUY => Side.SELL
  | Side.SELL => Side.BUY

/-- `best_price = (counter_side == BUY) ? best_bid : best_ask`. -/
def bestContra (b : OrderBook) (taker_side : Side) : Option Nat :=
  if contra taker_side = Side.BUY then b.get_best_bid else b.get_best_ask

/-- The marketability test of match_limit/ioc/fok: a BUY pays at least the
best ask, a SELL accepts at most the best bid. -/
def marketable (o : Order) (best : Nat) : Bool :=
  if o.side = Side.BUY then best ≤ o.price else o.price ≤ best

/-- `MatchingEngine::generate_trade` with the trade counter already
incremented (`generate_trade_id` pre-increments).  `std::time(nullptr)` is
outside the model; the timestamp is fixed at 0. -/
def generate_trade (counter : Nat) (maker taker : Order) (fill_qty : Nat) :
    Trade :=
  ⟨fmtTradeId counter, maker.symbol, maker.id, taker.id, maker.price,
    fill_qty, taker.side, 0⟩

/-- The side-book selected by a `Side` (the branch `side == BUY ? bids_ :
asks_` that recurs throughout order_book.cpp). -/
def sideList (b : OrderBook) (s : Side) : List (Nat × LimitLevel) :=
  match s with
  | Side.BUY => b.bids
  | Side.SELL => b.asks

/-- Replace the side-book selected by a `Side`. -/
def setSide (b : OrderBook) (s : Side) (lst : List (Nat × LimitLevel)) :
    OrderBook :=
  match s with
  | Side.BUY => { b with bids := lst }
  | Side.SELL => { b with asks := lst }

/-- A node after `remaining_quantity -= fill` through the reference. -/
def decNode (n : Node) (fill : Nat) : Node :=
  ⟨n.tag, { n.ord with
    remaining_quantity := n.ord.remaining_quantity - fill }⟩

/-- Rewrite the FIFO head of the level keyed `price`, decrementing its
remaining quantity by `fill`; all other levels are untouched. -/
def headRemDec (price fill : Nat) (s : List (Nat × LimitLevel)) :
    List (Nat × LimitLevel) :=
  s.map (fun pl =>
    if pl.1 == price then
      match pl.2.orders with
      | [] => pl
      | n :: rest => (pl.1, ⟨decNode n fill :: rest, pl.2.total_quantity⟩)
    else pl)

/-- The in-place `resting_order.remaining_quantity -= fill_qty` through the
FIFO head reference: rewrite the head node of the level at `(side, price)`.
Note it does NOT touch the level's cached `total_quantity` (matching the
C++, which mutates only through the `Order&`). -/
def decHeadRemaining (b : OrderBook) (side : Side) (price fill : Nat) :
    OrderBook :=
  setSide b side (headRemDec price fill (sideList b side))

/-- The shared matching loop of match_market_order / match_limit_order /
match_ioc_order / match_fok_order.  `checkPrice` is false exactly for
MARKET orders (which skip the marketability test).  The `fuel` argument
bounds the iteration count; running out of fuel models the C++ loop not
terminating (possible only from states the claims exclude), and is shown
unreachable from well-formed books.  Returns the final incoming order, the
book, the emitted trades in emission order, and the trade counter. -/
def matchLoop (checkPrice : Bool) :
    Nat → Order → OrderBook → Nat → Order × OrderBook × List Trade × Nat
  | 0, o, b, c => (o, b, [], c)
  | fuel + 1, o, b, c =>
    if o.remaining_quantity = 0 then (o, b, [], c)
    else
      match bestContra b o.side with
      | none => (o, b, [], c)
      | some best =>
        if checkPrice && !marketable o best then (o, b, [], c)
        else
          match b.get_orders_at_price (contra o.side) best with
          | none => (o, b, [], c)
          | some [] => (o, b, [], c)
          | some (n :: _) =>
            let resting := n.ord
            let fill := min o.remaining_quantity resting.remaining_quantity
            let c' := c + 1
            let t := generate_trade c' resting o fill
            let o' := { o with
              remaining_quantity := o.remaining_quantity - fill }
            let b' := decHeadRemaining b (contra o.side) best fill
            let b'' :=
              if resting.remaining_quantity - fill = 0 then
                (b'.cancel_order resting.id).2
              else b'
            let r := matchLoop checkPrice fuel o' b'' c'
            (r.1, r.2.1, t :: r.2.2.1, r.2.2.2)

/-- Number of resting orders in the book; used to bound the loop. -/
def OrderBook.orderCount (b : OrderBook) : Nat := b.nodes.length

/-- Fuel that always suffices for terminating runs of the C++ loop: each
iteration either removes a resting order or zeroes the taker's remainder. -/
def stdFuel (b : OrderBook) : Nat := b.orderCount + 2

/-- `MatchingEngine::match_market_order`: run the loop with the
marketability test disabled; any residual is discarded. -/
def match_market_order (o : Order) (b : OrderBook) (c : Nat) :
    OrderBook × List Trade × Nat :=
  let r := matchLoop false (stdFuel b) o b c
  (r.2.1, r.2.2.1, r.2.2.2)

/-- `MatchingEngine::match_limit_order`: run the loop; a positive residual
is rested on the book via add_order. -/
def match_limit_order (o : Order) (b : OrderBook) (c : Nat) :
    OrderBook × List Trade × Nat :=
  let r := matchLoop true (stdFuel b) o b c
  let b' := if 0 < r.1.remaining_quantity then r.2.1.add_order r.1 else r.2.1
  (b', r.2.2.1, r.2.2.2)

/-- `MatchingEngine::match_ioc_order`: run the loop; any residual is
discarded. -/
def match_ioc_order (o : Order) (b : OrderBook) (c : Nat) :
    OrderBook × List Trade × Nat :=
  let r := matchLoop true (stdFuel b) o b c
  (r.2.1, r.2.2.1, r.2.2.2)

/-- `MatchingEngine::can_fill_completely`: available liquidity on the
counter side within the order's limit must cover the remaining quantity. -/
def can_fill_completely (o : Order) (b : OrderBook) : Bool :=
  o.remaining_quantity ≤ b.get_available_liquidity (contra o.side) o.price

/-- `MatchingEngine::match_fok_order`: feasibility pre-check, then the
standard loop; infeasible orders change nothing. -/
def match_fok_order (o : Order) (b : OrderBook) (c : Nat) :
    OrderBook × List Trade × Nat :=
  if can_fill_completely o b then
    let r := matchLoop true (stdFuel b) o b c
    (r.2.1, r.2.2.1, r.2.2.2)
  else
    (b, [], c)

/-- `order_books_[symbol]`: find-or-default-construct. -/
def MatchingEngine.getBook (e : MatchingEngine) (symbol : String) :
    OrderBook :=
  match e.order_books.find? (fun sb => sb.1 == symbol) with
  | some sb => sb.2
  | none => OrderBook.empty

/-- Store a symbol's (possibly fresh) book back into the engine map. -/
def setBook (m : List (String × OrderBook)) (symbol : String)
    (b : OrderBook) : List (String × OrderBook) :=
  match m with
  | [] => [(symbol, b)]
  | sb :: rest =>
    if sb.1 == symbol then (symbol, b) :: rest else sb :: setBook rest symbol b

/-- `MatchingEngine::process_order`: fetch (or create) the symbol's book,
dispatch on the order type, append the emitted trades to the history, and
store the updated book and counter. -/
def process_order (e : MatchingEngine) (o : Order) : MatchingEngine :=
  let b := e.getBook o.symbol
  let r :=
    match o.type with
    | OrderType.MARKET => match_market_order o b e.trade_counter
    | OrderType.LIMIT => match_limit_order o b e.trade_counter
    | OrderType.IOC => match_ioc_order o b e.trade_counter
    | OrderType.FOK => match_fok_order o b e.trade_counter
  { order_books := setBook e.order_books o.symbol r.1
    trade_history := e.trade_history ++ r.2.1
    trade_counter := r.2.2 }

/-- A run of the single-threaded event loop: process the orders in arrival
order, starting from the freshly constructed engine. -/
def runEngine (orders : List Order) : MatchingEngine :=
  orders.foldl process_order MatchingEngine.mk0

/-- Sum of the remaining quantities of the orders in a FIFO list: the value
the spec says the cached `total_quantity` must equal. -/
def levelRemainingSum (orders : List Node) : Nat :=
  (orders.map (fun n => n.ord.remaining_quantity)).sum

/-- One level satisfies the book-side structural invariants: a non-empty
FIFO list whose orders carry this side and this level's price and a
positive remainder. -/
def levelNodesOK (side : Side) (p : Nat) (l : LimitLevel) : Prop :=
  l.orders ≠ [] ∧
  ∀ n ∈ l.orders,
    n.ord.side = side ∧ n.ord.price = p ∧ 0 < n.ord.remaining_quantity

instance (side : Side) (p : Nat) (l : LimitLevel) :
    Decidable (levelNodesOK side p l) := by
  unfold levelNodesOK; infer_instance

/-- The node/index part of well-formedness: live node tags and order ids
are unique, the index maps every resting order's id to its node's tag
(valid cursors), and the index's keys are unique. -/
def nodesIndexOK (ns : List Node) (idx : List (String × Nat)) : Prop :=
  (ns.map Node.tag).Nodup ∧
  (ns.map (fun n => n.ord.id)).Nodup ∧
  (∀ n ∈ ns, alistLookup idx n.ord.id = some n.tag) ∧
  (idx.map Prod.fst).Nodup

instance (ns : List Node) (idx : List (String × Nat)) :
    Decidable (nodesIndexOK ns idx) := by
  unfold nodesIndexOK; infer_instance

/-- Well-formedness of a book: the structural facts that hold for every
reachable book (note the cached `total_quantity` is deliberately NOT part
of it). -/
def WF (b : OrderBook) : Prop :=
  List.Sorted (· > ·) (b.bids.map Prod.fst) ∧
  List.Sorted (· < ·) (b.asks.map Prod.fst) ∧
  (∀ pl ∈ b.bids, levelNodesOK Side.BUY pl.1 pl.2) ∧
  (∀ pl ∈ b.asks, levelNodesOK Side.SELL pl.1 pl.2) ∧
  nodesIndexOK b.nodes b.order_index

instance (b : OrderBook) : Decidable (WF b) := by
  unfold WF; infer_instance

/-- "No crossed book": whenever both a best bid and a best ask are present,
the best bid is strictly below the best ask. -/
def noCross (b : OrderBook) : Bool :=
  match b.get_best_bid, b.get_best_ask with
  | some bb, some ba => bb < ba
  | _, _ => true

/-- The trades a single `process_order` call appends to the history. -/
def emitted (e : MatchingEngine) (o : Order) : List Trade :=
  (process_order e o).trade_history.drop e.trade_history.length

/-- Price `q` is no better than price `p` from the taker's perspective:
for a BUY taker later prices may only be higher (asks ascend), for a SELL
taker only lower (bids descend). -/
def noWorse (ts : Side) (p q : Nat) : Prop :=
  match ts with
  | Side.BUY => p ≤ q
  | Side.SELL => q ≤ p

/-! ### Helper lemmas on the engine's symbol map -/

theorem find?_setBook_self (m : List (String × OrderBook)) (sym : String)
    (b : OrderBook) :
    (setBook m sym b).find? (fun sb => sb.1 == sym) = some (sym, b) := by
  induction m with
  | nil => simp [setBook]
  | cons e rest ih =>
    by_cases h : e.1 = sym
    · simp [setBook, h]
    · simp only [setBook, beq_iff_eq, h, if_false, List.find?_cons]
      have : (e.1 == sym) = false := by simp [h]
      simp [this, ih]

theorem find?_setBook_ne (m : List (String × OrderBook)) (sym s : String)
    (b : OrderBook) (h : s ≠ sym) :
    (setBook m sym b).find? (fun sb => sb.1 == s) =
      m.find? (fun sb => sb.1 == s) := by
  induction m with
  | nil => simp [setBook, (by simp [h.symm] : (sym == s) = false)]
  | cons e rest ih =>
    by_cases he : e.1 = sym
    · subst he
      simp only [setBook, beq_self_eq_true, if_true, List.find?_cons]
      have : (e.1 == s) = false := by
        simp only [beq_eq_false_iff_ne, ne_eq]
        exact fun hc => h hc.symm
      simp [this]
    · simp only [setBook, beq_iff_eq, he, if_false, List.find?_cons]
      cases hc : (e.1 == s) <;> simp [hc, ih]

theorem getBook_process (e : MatchingEngine) (o : Order) (s : String) :
    (process_order e o).getBook s =
      if s = o.symbol then
        (match o.type with
          | OrderType.MARKET => match_market_order o (e.getBook o.symbol) e.trade_counter
          | OrderType.LIMIT => match_limit_order o (e.getBook o.symbol) e.trade_counter
          | OrderType.IOC => match_ioc_order o (e.getBook o.symbol) e.trade_counter
          | OrderType.FOK => match_fok_order o (e.getBook o.symbol) e.trade_counter).1
      else e.getBook s := by
  by_cases h : s = o.symbol
  · subst h
    simp [process_order, MatchingEngine.getBook, find?_setBook_self]
  · simp [process_order, MatchingEngine.getBook, find?_setBook_ne _ _ _ _ h, h]

/-! ### C3: infeasible FOK is a no-op -/

/-- C3: for every FOK order whose available contra-side liquidity within its
limit price (as computed by get_available_liquidity) is below the order's
quantity, process_order emits no trades and every symbol's book — levels
and index alike — is exactly as before the call. -/
theorem C3_fok_infeasible_noop (e : MatchingEngine) (o : Order)
    (hty : o.type = OrderType.FOK)
    (hrem : o.remaining_quantity = o.quantity)
    (hliq : (e.getBook o.symbol).get_available_liquidity (contra o.side) o.price
        < o.quantity) :
    (process_order e o).trade_history = e.trade_history ∧
    (∀ s, (process_order e o).getBook s = e.getBook s) ∧
    (process_order e o).trade_counter = e.trade_counter := by
  have hcf : can_fill_completely o (e.getBook o.symbol) = false := by
    simp only [can_fill_completely, decide_eq_false_iff_not, not_le, hrem]
    exact hliq
  refine ⟨?_, ?_, ?_⟩
  · simp [process_order, hty, match_fok_order, hcf]
  · intro s
    rw [getBook_process]
    by_cases h : s = o.symbol
    · subst h; simp [hty, match_fok_order, hcf]
    · simp [h]
  · simp [process_order, hty, match_fok_order, hcf]

theorem C3_fok_infeasible_noop_witness :
    ((⟨"F", "B", Side.BUY, OrderType.FOK, 100, 9, 9, 3⟩ : Order).type
        = OrderType.FOK) ∧
    (((runEngine [⟨"A", "B", Side.SELL, OrderType.LIMIT, 100, 5, 5, 1⟩]).getBook
        "B").get_available_liquidity
        (contra (⟨"F", "B", Side.BUY, OrderType.FOK, 100, 9, 9, 3⟩ : Order).side)
        100 < 9) ∧
    (process_order (runEngine [⟨"A", "B", Side.SELL, OrderType.LIMIT, 100, 5, 5, 1⟩])
        (⟨"F", "B", Side.BUY, OrderType.FOK, 100, 9, 9, 3⟩ : Order)).trade_history
      = (runEngine [⟨"A", "B", Side.SELL, OrderType.LIMIT, 100, 5, 5, 1⟩]).trade_history ∧
    (process_order (runEngine [⟨"A", "B", Side.SELL, OrderType.LIMIT, 100, 5, 5, 1⟩])
        (⟨"F", "B", Side.BUY, OrderType.FOK, 100, 9, 9, 3⟩ : Order)).getBook "B"
      = (runEngine [⟨"A", "B", Side.SELL, OrderType.LIMIT, 100, 5, 5, 1⟩]).getBook "B" :=
  ⟨rfl, by decide,
    (C3_fok_infeasible_noop _ _ rfl rfl (by decide)).1,
    (C3_fok_infeasible_noop _ _ rfl rfl (by decide)).2.1 "B"⟩

/-! ### C7: available liquidity is the filtered sum of cached totals -/

theorem liquidityScan_eq_sum (keep : Nat → Bool)
    (s : List (Nat × LimitLevel))
    (h : s.Pairwise (fun pl ql => keep ql.1 = true → keep pl.1 = true)) :
    liquidityScan keep s =
      ((s.filter (fun pl => keep pl.1)).map
        (fun pl => pl.2.total_quantity)).sum := by
  induction s with
  | nil => simp [liquidityScan]
  | cons pl rest ih =>
    rcases List.pairwise_cons.mp h with ⟨hhead, hrest⟩
    by_cases hk : keep pl.1 = true
    · simp [liquidityScan, hk, ih hrest]
    · have hnone : rest.filter (fun ql => keep ql.1) = [] := by
        apply List.filter_eq_nil_iff.mpr
        intro ql hql
        simp only [Bool.not_eq_true]
        cases hc : keep ql.1
        · rfl
        · exact absurd (hhead ql hql hc) hk
      simp [liquidityScan, hk, hnone]

/-- C7: on every well-formed book, `get_available_liquidity(SELL, L)` equals
the sum of the cached `total_quantity` over ask levels priced ≤ L, and
`get_available_liquidity(BUY, L)` the sum over bid levels priced ≥ L (the
priority-order scan with early break loses no in-limit level). -/
theorem C7_available_liquidity_eq_filtered_sum (b : OrderBook) (L : Nat)
    (h : WF b) :
    b.get_available_liquidity Side.SELL L =
      ((b.asks.filter (fun pl => pl.1 ≤ L)).map
        (fun pl => pl.2.total_quantity)).sum ∧
    b.get_available_liquidity Side.BUY L =
      ((b.bids.filter (fun pl => L ≤ pl.1)).map
        (fun pl => pl.2.total_quantity)).sum := by
  obtain ⟨hbids, hasks, -⟩ := h
  constructor
  · have hp : b.asks.Pairwise
        (fun pl ql => decide (ql.1 ≤ L) = true → decide (pl.1 ≤ L) = true) := by
      have := (List.pairwise_map.mp hasks)
      exact this.imp (fun {x y} hxy => by
        simp only [decide_eq_true_eq]
        omega)
    simpa [OrderBook.get_available_liquidity] using
      liquidityScan_eq_sum (fun p => decide (p ≤ L)) b.asks hp
  · have hp : b.bids.Pairwise
        (fun pl ql => decide (L ≤ ql.1) = true → decide (L ≤ pl.1) = true) := by
      have := (List.pairwise_map.mp hbids)
      exact this.imp (fun {x y} hxy => by
        simp only [decide_eq_true_eq]
        omega)
    simpa [OrderBook.get_available_liquidity] using
      liquidityScan_eq_sum (fun p => decide (L ≤ p)) b.bids hp

theorem C7_available_liquidity_eq_filtered_sum_witness :
    WF ((runEngine [⟨"A", "B", Side.SELL, OrderType.LIMIT, 100, 5, 5, 1⟩,
        ⟨"C", "B", Side.SELL, OrderType.LIMIT, 101, 7, 7, 2⟩,
        ⟨"D", "B", Side.BUY, OrderType.LIMIT, 90, 4, 4, 3⟩]).getBook "B") ∧
    ((runEngine [⟨"A", "B", Side.SELL, OrderType.LIMIT, 100, 5, 5, 1⟩,
        ⟨"C", "B", Side.SELL, OrderType.LIMIT, 101, 7, 7, 2⟩,
        ⟨"D", "B", Side.BUY, OrderType.LIMIT, 90, 4, 4, 3⟩]).getBook
        "B").get_available_liquidity Side.SELL 100 =
      ((((runEngine [⟨"A", "B", Side.SELL, OrderType.LIMIT, 100, 5, 5, 1⟩,
        ⟨"C", "B", Side.SELL, OrderType.LIMIT, 101, 7, 7, 2⟩,
        ⟨"D", "B", Side.BUY, OrderType.LIMIT, 90, 4, 4, 3⟩]).getBook
        "B").asks.filter (fun pl => pl.1 ≤ 100)).map
        (fun pl => pl.2.total_quantity)).sum :=
  ⟨by decide,
    (C7_available_liquidity_eq_filtered_sum _ 100 (by decide)).1⟩

/-! ### C1 and C2: the matching loop leaves the cached totals stale -/

/-- C1 (falsified by the code): after `LIMIT SELL id=A price=100 qty=5`
followed by `MARKET BUY qty=3`, the single ask level at 100 holds one order
with remaining 2, yet its cached `total_quantity` is still 5 — the matching
loop decrements only the resting order's `remaining_quantity`, never the
level's cached total. -/
theorem C1_cached_total_stale_counterexample :
    ((runEngine [⟨"A", "B", Side.SELL, OrderType.LIMIT, 100, 5, 5, 1⟩,
        ⟨"M", "B", Side.BUY, OrderType.MARKET, 0, 3, 3, 2⟩]).getBook
        "B").get_total_quantity Side.SELL 100 = 5 ∧
    levelRemainingSum
      ((((runEngine [⟨"A", "B", Side.SELL, OrderType.LIMIT, 100, 5, 5, 1⟩,
        ⟨"M", "B", Side.BUY, OrderType.MARKET, 0, 3, 3, 2⟩]).getBook
        "B").get_orders_at_price Side.SELL 100).getD []) = 2 ∧
    (5 : Nat) ≠ 2 := by
  refine ⟨by decide, by decide, by decide⟩

/-- C2 (falsified by the code): after the C1 run the stale cached total (5)
makes the FOK pre-check accept a `FOK BUY qty=4 @100`, yet the matching
loop can only fill 2 (the real remaining liquidity) and exits with a
positive remainder: the emitted FOK trades sum to 2, not 4. -/
theorem C2_fok_precheck_passes_but_underfills_counterexample :
    can_fill_completely (⟨"F", "B", Side.BUY, OrderType.FOK, 100, 4, 4, 3⟩ : Order)
      ((runEngine [⟨"A", "B", Side.SELL, OrderType.LIMIT, 100, 5, 5, 1⟩,
        ⟨"M", "B", Side.BUY, OrderType.MARKET, 0, 3, 3, 2⟩]).getBook "B") = true ∧
    (emitted (runEngine [⟨"A", "B", Side.SELL, OrderType.LIMIT, 100, 5, 5, 1⟩,
        ⟨"M", "B", Side.BUY, OrderType.MARKET, 0, 3, 3, 2⟩])
      (⟨"F", "B", Side.BUY, OrderType.FOK, 100, 4, 4, 3⟩ : Order)).map
        Trade.quantity = [2] ∧
    ((emitted (runEngine [⟨"A", "B", Side.SELL, OrderType.LIMIT, 100, 5, 5, 1⟩,
        ⟨"M", "B", Side.BUY, OrderType.MARKET, 0, 3, 3, 2⟩])
      (⟨"F", "B", Side.BUY, OrderType.FOK, 100, 4, 4, 3⟩ : Order)).map
        Trade.quantity).sum ≠
      (⟨"F", "B", Side.BUY, OrderType.FOK, 100, 4, 4, 3⟩ : Order).quantity := by
  refine ⟨by decide, by decide, by decide⟩

/-! ### Generic association-list and node-list lemmas -/

theorem find?_eq_some_of_unique {α : Type} (l : List α) (p : α → Bool) (x : α)
    (hx : x ∈ l) (hpx : p x = true)
    (huniq : ∀ y ∈ l, p y = true → y = x) :
    l.find? p = some x := by
  induction l with
  | nil => cases hx
  | cons a rest ih =>
    by_cases ha : p a = true
    · have : a = x := huniq a (List.mem_cons_self a rest) ha
      subst this
      simp [List.find?_cons, ha]
    · have hax : a ≠ x := fun h => ha (h ▸ hpx)
      have hx' : x ∈ rest := by
        rcases List.mem_cons.mp hx with h | h
        · exact absurd h.symm hax
        · exact h
      rw [List.find?_cons_of_neg _ (by simpa using ha)]
      exact ih hx' (fun y hy hpy => huniq y (List.mem_cons_of_mem _ hy) hpy)

theorem alistLookup_none_iff (l : List (String × Nat)) (k : String) :
    alistLookup l k = none ↔ ∀ e ∈ l, e.1 ≠ k := by
  unfold alistLookup
  cases hf : l.find? (fun e => e.1 == k) with
  | none =>
    simp only [true_iff]
    intro e he hek
    have := List.find?_eq_none.mp hf e he
    simp [hek] at this
  | some e =>
    simp only [reduceCtorEq, false_iff, not_forall]
    have hmem := List.mem_of_find?_eq_some hf
    have hpe := List.find?_some hf
    exact ⟨e, hmem, by simpa using hpe⟩

theorem alistLookup_insert_self (l : List (String × Nat)) (k : String)
    (v : Nat) : alistLookup (alistInsert l k v) k = some v := by
  induction l with
  | nil => simp [alistInsert, alistLookup]
  | cons e rest ih =>
    by_cases he : e.1 = k
    · simp [alistInsert, he, alistLookup]
    · simp only [alistInsert, beq_iff_eq, he, if_false]
      unfold alistLookup at ih ⊢
      rw [List.find?_cons_of_neg _ (by simpa using he)]
      exact ih

theorem alistLookup_insert_ne (l : List (String × Nat)) (k k' : String)
    (v : Nat) (h : k' ≠ k) :
    alistLookup (alistInsert l k v) k' = alistLookup l k' := by
  induction l with
  | nil => simp [alistInsert, alistLookup, (by simpa using h.symm : ¬k = k')]
  | cons e rest ih =>
    by_cases he : e.1 = k
    · subst he
      simp only [alistInsert, beq_self_eq_true, if_true]
      unfold alistLookup
      rw [List.find?_cons_of_neg _ (by simpa using fun hc => h hc.symm),
        List.find?_cons_of_neg _ (by simpa using fun hc => h hc.symm)]
    · simp only [alistInsert, beq_iff_eq, he, if_false]
      unfold alistLookup at ih ⊢
      cases hc : (e.1 == k') with
      | true =>
        rw [List.find?_cons_of_pos _ (by simpa using hc),
          List.find?_cons_of_pos _ (by simpa using hc)]
      | false =>
        rw [List.find?_cons_of_neg _ (by simp_all),
          List.find?_cons_of_neg _ (by simp_all)]
        exact ih

theorem alistErase_insert (l : List (String × Nat)) (k : String) (v : Nat) :
    alistErase (alistInsert l k v) k = alistErase l k := by
  induction l with
  | nil => simp [alistInsert, alistErase, List.eraseP]
  | cons e rest ih =>
    by_cases he : e.1 = k
    · simp only [alistInsert, beq_iff_eq, he, if_true]
      unfold alistErase
      rw [List.eraseP_cons_of_pos (by simp), List.eraseP_cons_of_pos (by simp [he])]
    · simp only [alistInsert, beq_iff_eq, he, if_false]
      unfold alistErase at ih ⊢
      rw [List.eraseP_cons_of_neg (by simpa using he),
        List.eraseP_cons_of_neg (by simpa using he)]
      rw [ih]

theorem alistErase_of_lookup_none (l : List (String × Nat)) (k : String)
    (h : alistLookup l k = none) : alistErase l k = l := by
  apply List.eraseP_of_forall_not
  intro e he
  simpa using (alistLookup_none_iff l k).mp h e he

theorem alistLookup_erase_ne (l : List (String × Nat)) (k k' : String)
    (h : k' ≠ k) :
    alistLookup (alistErase l k) k' = alistLookup l k' := by
  induction l with
  | nil => simp [alistErase, alistLookup, List.eraseP]
  | cons e rest ih =>
    unfold alistErase at ih ⊢
    unfold alistLookup at ih ⊢
    by_cases he : e.1 = k
    · rw [List.eraseP_cons_of_pos (by simpa using he)]
      rw [List.find?_cons_of_neg _ (by
        simp only [he, beq_iff_eq]
        exact fun hc => h hc.symm)]
    · rw [List.eraseP_cons_of_neg (by simpa using he)]
      cases hc : (e.1 == k') with
      | true =>
        rw [List.find?_cons_of_pos _ (by simpa using hc),
          List.find?_cons_of_pos _ (by simpa using hc)]
      | false =>
        rw [List.find?_cons_of_neg _ (by simp_all),
          List.find?_cons_of_neg _ (by simp_all)]
        exact ih

theorem alistLookup_erase_self (l : List (String × Nat)) (k : String)
    (h : (l.map Prod.fst).Nodup) :
    alistLookup (alistErase l k) k = none := by
  induction l with
  | nil => simp [alistErase, alistLookup, List.eraseP]
  | cons e rest ih =>
    simp only [List.map_cons] at h
    rcases List.nodup_cons.mp h with ⟨hnot, hrest⟩
    unfold alistErase at ih ⊢
    by_cases he : e.1 = k
    · rw [List.eraseP_cons_of_pos (by simpa using he)]
      apply (alistLookup_none_iff _ _).mpr
      intro f hf hfk
      exact hnot (by
        rw [he, ← hfk]
        exact List.mem_map_of_mem Prod.fst hf)
    · rw [List.eraseP_cons_of_neg (by simpa using he)]
      unfold alistLookup at ih ⊢
      rw [List.find?_cons_of_neg _ (by simpa using he)]
      exact ih hrest

theorem alistErase_keys_sublist (l : List (String × Nat)) (k : String) :
    ((alistErase l k).map Prod.fst).Sublist (l.map Prod.fst) :=
  List.Sublist.map _ (List.eraseP_sublist l)

theorem alistInsert_keys (l : List (String × Nat)) (k : String) (v : Nat)
    (h : alistLookup l k = none) :
    (alistInsert l k v).map Prod.fst = l.map Prod.fst ++ [k] := by
  induction l with
  | nil => simp [alistInsert]
  | cons e rest ih =>
    have hek : e.1 ≠ k := (alistLookup_none_iff _ _).mp h e (by simp)
    have hrest : alistLookup rest k = none := by
      apply (alistLookup_none_iff _ _).mpr
      intro f hf
      exact (alistLookup_none_iff _ _).mp h f (by simp [hf])
    simp [alistInsert, hek, ih hrest]


/-! ### Node-list and level-insertion lemmas -/

theorem le_foldr_max (l : List Nat) (x : Nat) (hx : x ∈ l) :
    x ≤ l.foldr max 0 := by
  induction l with
  | nil => cases hx
  | cons a rest ih =>
    rcases List.mem_cons.mp hx with h | h
    · subst h; exact Nat.le_max_left _ _
    · exact le_trans (ih h) (Nat.le_max_right _ _)

theorem freshTag_gt (b : OrderBook) (m : Node) (hm : m ∈ b.nodes) :
    m.tag < b.freshTag := by
  have : m.tag ≤ (b.nodes.map Node.tag).foldr max 0 :=
    le_foldr_max _ _ (List.mem_map_of_mem Node.tag hm)
  unfold OrderBook.freshTag
  omega

theorem mem_sideNodes_of_level {s : List (Nat × LimitLevel)}
    {lvl : Nat × LimitLevel} {nd : Node} (hl : lvl ∈ s)
    (hn : nd ∈ lvl.2.orders) : nd ∈ sideNodes s := by
  unfold sideNodes
  exact List.mem_flatten.mpr ⟨lvl.2.orders,
    List.mem_map_of_mem (fun pl => pl.2.orders) hl, hn⟩

theorem sideNodes_cons (pl : Nat × LimitLevel) (rest : List (Nat × LimitLevel)) :
    sideNodes (pl :: rest) = pl.2.orders ++ sideNodes rest := by
  simp [sideNodes]

theorem sideNodes_upsert_perm (before : Nat → Nat → Bool) (price : Nat)
    (n : Node) (q : Nat) (s : List (Nat × LimitLevel)) :
    (sideNodes (upsertLevel before price n q s)).Perm (n :: sideNodes s) := by
  induction s with
  | nil => simp [upsertLevel, sideNodes]
  | cons pl rest ih =>
    rcases pl with ⟨p, l⟩
    by_cases hp : p = price
    · subst hp
      rw [upsertLevel, if_pos (by simp), sideNodes_cons, sideNodes_cons]
      have he : (⟨l.orders ++ [n], l.total_quantity + q⟩ :
          LimitLevel).orders ++ sideNodes rest = l.orders ++ n :: sideNodes rest := by
        simp
      rw [he]
      exact List.perm_middle
    · by_cases hb : before price p
      · rw [upsertLevel, if_neg (by simpa using hp), if_pos hb,
          sideNodes_cons]
        simp
      · rw [upsertLevel, if_neg (by simpa using hp), if_neg hb,
          sideNodes_cons, sideNodes_cons]
        exact ((List.Perm.append_left l.orders ih).trans List.perm_middle)

theorem add_order_index (b : OrderBook) (o : Order) :
    (b.add_order o).order_index = alistInsert b.order_index o.id b.freshTag := by
  unfold OrderBook.add_order
  by_cases h : o.side = Side.BUY <;> simp [h]

theorem add_order_nodes_perm (b : OrderBook) (o : Order) :
    (b.add_order o).nodes.Perm ((⟨b.freshTag, o⟩ : Node) :: b.nodes) := by
  unfold OrderBook.add_order OrderBook.nodes
  by_cases h : o.side = Side.BUY
  · simp only [h, if_true]
    exact (List.Perm.append_right (sideNodes b.asks)
      (sideNodes_upsert_perm _ _ _ _ _)).trans (by simp)
  · simp only [h, if_false]
    exact (List.Perm.append_left (sideNodes b.bids)
      (sideNodes_upsert_perm _ _ _ _ _)).trans List.perm_middle

theorem derefTag_add (b : OrderBook) (o : Order) :
    (b.add_order o).derefTag b.freshTag = some o := by
  unfold OrderBook.derefTag
  rw [find?_eq_some_of_unique ((b.add_order o).nodes)
    (fun n => n.tag == b.freshTag) ⟨b.freshTag, o⟩]
  · exact ((add_order_nodes_perm b o).mem_iff).mpr (List.mem_cons_self _ _)
  · simp
  · intro y hy hty
    rcases List.mem_cons.mp (((add_order_nodes_perm b o).mem_iff).mp hy) with
      h | h
    · exact h
    · exact absurd (by simpa using hty) (Nat.ne_of_lt (freshTag_gt b y h))

theorem removeNode_upsert (before : Nat → Nat → Bool) (price rem : Nat)
    (n : Node) (s : List (Nat × LimitLevel))
    (htags : ∀ lvl ∈ s, ∀ nd ∈ lvl.2.orders, nd.tag < n.tag)
    (hne : ∀ lvl ∈ s, lvl.2.orders ≠ []) :
    removeNode price n.tag rem (upsertLevel before price n rem s) = s := by
  induction s with
  | nil =>
    rw [upsertLevel, removeNode, if_pos (by simp)]
    rw [List.eraseP_cons_of_pos (by simp)]
    simp
  | cons pl rest ih =>
    rcases pl with ⟨p, l⟩
    by_cases hp : p = price
    · subst hp
      rw [upsertLevel, if_pos (by simp), removeNode, if_pos (by simp)]
      rw [List.eraseP_append_right _
        (fun nd hnd => by
          simpa using Nat.ne_of_lt (htags (p, l) (by simp) nd hnd))]
      rw [List.eraseP_cons_of_pos (by simp)]
      simp only [List.eraseP_nil, List.append_nil]
      have hnonempty : l.orders ≠ [] := hne (p, l) (by simp)
      rw [if_neg (by simpa [List.isEmpty_iff] using hnonempty)]
      simp
    · by_cases hb : before price p
      · rw [upsertLevel, if_neg (by simpa using hp), if_pos hb,
          removeNode, if_pos (by simp)]
        rw [List.eraseP_cons_of_pos (by simp)]
        simp [List.isEmpty]
      · rw [upsertLevel, if_neg (by simpa using hp), if_neg hb, removeNode,
          if_neg (by simpa using hp)]
        rw [ih (fun lvl hl => htags lvl (by simp [hl]))
          (fun lvl hl => hne lvl (by simp [hl]))]

/-! ### C9 and C10: add_order / cancel_order round trips -/

theorem level_tags_lt_freshTag_bids (b : OrderBook) :
    ∀ lvl ∈ b.bids, ∀ nd ∈ lvl.2.orders, nd.tag < b.freshTag := by
  intro lvl hl nd hnd
  exact freshTag_gt b nd (by
    unfold OrderBook.nodes
    exact List.mem_append_left _ (mem_sideNodes_of_level hl hnd))

theorem level_tags_lt_freshTag_asks (b : OrderBook) :
    ∀ lvl ∈ b.asks, ∀ nd ∈ lvl.2.orders, nd.tag < b.freshTag := by
  intro lvl hl nd hnd
  exact freshTag_gt b nd (by
    unfold OrderBook.nodes
    exact List.mem_append_right _ (mem_sideNodes_of_level hl hnd))

/-- Shared core of C9 and C10: adding an order whose id may or may not be
indexed, then cancelling that id, restores both side books exactly and
erases the id from the index. -/
theorem add_cancel_core (b : OrderBook) (o : Order) (hWF : WF b) :
    (b.add_order o).cancel_order o.id =
      (true, ⟨b.bids, b.asks, alistErase b.order_index o.id⟩) := by
  obtain ⟨hsb, hsa, hlb, hla, -⟩ := hWF
  unfold OrderBook.cancel_order
  rw [add_order_index, alistLookup_insert_self]
  simp only [derefTag_add]
  by_cases hside : o.side = Side.BUY
  · unfold OrderBook.add_order
    simp only [hside, if_true]
    rw [removeNode_upsert (fun a c => c < a) o.price o.remaining_quantity
      ⟨b.freshTag, o⟩ b.bids (level_tags_lt_freshTag_bids b)
      (fun lvl hl => (hlb lvl hl).1)]
    rw [alistErase_insert]
  · unfold OrderBook.add_order
    simp only [hside, if_false]
    rw [removeNode_upsert (fun a c => a < c) o.price o.remaining_quantity
      ⟨b.freshTag, o⟩ b.asks (level_tags_lt_freshTag_asks b)
      (fun lvl hl => (hla lvl hl).1)]
    rw [alistErase_insert]

/-- C9: on a well-formed book, adding an order whose id is not yet indexed
and then cancelling that id returns `true` and restores the book literally:
same side books (hence same BBO, level counts and totals) and same index. -/
theorem C9_add_cancel_roundtrip (b : OrderBook) (o : Order) (hWF : WF b)
    (hrem : 0 < o.remaining_quantity)
    (hid : alistLookup b.order_index o.id = none) :
    (b.add_order o).cancel_order o.id = (true, b) := by
  rw [add_cancel_core b o hWF, alistErase_of_lookup_none _ _ hid]

theorem C9_add_cancel_roundtrip_witness :
    WF ((runEngine [⟨"A", "B", Side.SELL, OrderType.LIMIT, 100, 5, 5, 1⟩]).getBook
        "B") ∧
    (((runEngine [⟨"A", "B", Side.SELL, OrderType.LIMIT, 100, 5, 5, 1⟩]).getBook
        "B").add_order
        (⟨"X", "B", Side.BUY, OrderType.LIMIT, 90, 7, 7, 2⟩ : Order)).cancel_order
        "X" =
      (true, (runEngine [⟨"A", "B", Side.SELL, OrderType.LIMIT, 100, 5, 5, 1⟩]).getBook
        "B") :=
  ⟨by decide,
    C9_add_cancel_roundtrip _ _ (by decide) (by decide) (by decide)⟩

/-- C10: `add_order` does not check that the id is fresh.  Adding an order
whose id already rests leaves both copies in their levels while the index
maps the id only to the newer node; cancelling the id then returns `true`,
removes exactly the newer copy (both side books return to their prior
state), keeps the older copy resting, and a further cancel of the id
returns `false`. -/
theorem C10_duplicate_id_shadows_index (b : OrderBook) (o : Order) (m : Node)
    (hWF : WF b) (hm : m ∈ b.nodes) (hmid : m.ord.id = o.id) :
    alistLookup (b.add_order o).order_index o.id = some b.freshTag ∧
    m ∈ (b.add_order o).nodes ∧
    (⟨b.freshTag, o⟩ : Node) ∈ (b.add_order o).nodes ∧
    (b.add_order o).cancel_order o.id =
      (true, ⟨b.bids, b.asks, alistErase b.order_index o.id⟩) ∧
    m ∈ (OrderBook.mk b.bids b.asks (alistErase b.order_index o.id)).nodes ∧
    ((OrderBook.mk b.bids b.asks
      (alistErase b.order_index o.id)).cancel_order o.id).1 = false := by
  refine ⟨?_, ?_, ?_, add_cancel_core b o hWF, ?_, ?_⟩
  · rw [add_order_index, alistLookup_insert_self]
  · exact ((add_order_nodes_perm b o).mem_iff).mpr (List.mem_cons_of_mem _ hm)
  · exact ((add_order_nodes_perm b o).mem_iff).mpr (List.mem_cons_self _ _)
  · exact hm
  · obtain ⟨-, -, -, -, -, -, -, hkeys⟩ := hWF
    unfold OrderBook.cancel_order
    rw [show (OrderBook.mk b.bids b.asks
        (alistErase b.order_index o.id)).order_index =
      alistErase b.order_index o.id from rfl]
    rw [alistLookup_erase_self _ _ hkeys]

theorem C10_duplicate_id_shadows_index_witness :
    WF (OrderBook.empty.add_order
      (⟨"X", "B", Side.BUY, OrderType.LIMIT, 100, 5, 5, 1⟩ : Order)) ∧
    (⟨1, ⟨"X", "B", Side.BUY, OrderType.LIMIT, 100, 5, 5, 1⟩⟩ : Node) ∈
      (OrderBook.empty.add_order
        (⟨"X", "B", Side.BUY, OrderType.LIMIT, 100, 5, 5, 1⟩ : Order)).nodes ∧
    ((OrderBook.empty.add_order
        (⟨"X", "B", Side.BUY, OrderType.LIMIT, 100, 5, 5, 1⟩ : Order)).add_order
        (⟨"X", "B", Side.SELL, OrderType.LIMIT, 200, 9, 9, 2⟩ : Order)).cancel_order
        "X" =
      (true, ⟨(OrderBook.empty.add_order
          (⟨"X", "B", Side.BUY, OrderType.LIMIT, 100, 5, 5, 1⟩ : Order)).bids,
        (OrderBook.empty.add_order
          (⟨"X", "B", Side.BUY, OrderType.LIMIT, 100, 5, 5, 1⟩ : Order)).asks,
        alistErase (OrderBook.empty.add_order
          (⟨"X", "B", Side.BUY, OrderType.LIMIT, 100, 5, 5, 1⟩ : Order)).order_index
          "X"⟩) :=
  ⟨by decide, by decide,
    (C10_duplicate_id_shadows_index _ _
      (⟨1, ⟨"X", "B", Side.BUY, OrderType.LIMIT, 100, 5, 5, 1⟩⟩ : Node)
      (by decide) (by decide) (by decide)).2.2.2.1⟩

/-! ### Side-selection and one-iteration infrastructure -/

theorem sideList_setSide_same (b : OrderBook) (s : Side)
    (lst : List (Nat × LimitLevel)) : sideList (setSide b s lst) s = lst := by
  cases s <;> rfl

theorem sideList_setSide_other (b : OrderBook) (s t : Side)
    (lst : List (Nat × LimitLevel)) (h : t ≠ s) :
    sideList (setSide b s lst) t = sideList b t := by
  cases s <;> cases t <;> first | rfl | exact absurd rfl h

theorem setSide_order_index (b : OrderBook) (s : Side)
    (lst : List (Nat × LimitLevel)) :
    (setSide b s lst).order_index = b.order_index := by
  cases s <;> rfl

theorem contra_ne (ts : Side) : contra ts ≠ ts := by
  cases ts <;> simp [contra]

theorem nodes_eq_sideLists (b : OrderBook) :
    b.nodes = sideNodes (sideList b Side.BUY) ++ sideNodes (sideList b Side.SELL) :=
  rfl

theorem bestContra_eq (b : OrderBook) (ts : Side) :
    bestContra b ts = ((sideList b (contra ts)).head?).map Prod.fst := by
  cases ts
  · show bestContra b Side.BUY = _
    unfold bestContra contra OrderBook.get_best_ask sideList
    cases b.asks with
    | nil => rfl
    | cons pl rest => cases pl; rfl
  · show bestContra b Side.SELL = _
    unfold bestContra contra OrderBook.get_best_bid sideList
    cases b.bids with
    | nil => rfl
    | cons pl rest => cases pl; rfl

theorem get_orders_at_price_eq (b : OrderBook) (s : Side) (p : Nat) :
    b.get_orders_at_price s p =
      (levelLookup (sideList b s) p).map LimitLevel.orders := by
  cases s
  · unfold OrderBook.get_orders_at_price sideList
    cases hl : levelLookup b.bids p <;> simp [hl]
  · unfold OrderBook.get_orders_at_price sideList
    cases hl : levelLookup b.asks p <;> simp [hl]

theorem levelLookup_cons_self (p : Nat) (l : LimitLevel)
    (rest : List (Nat × LimitLevel)) :
    levelLookup ((p, l) :: rest) p = some l := by
  unfold levelLookup
  rw [List.find?_cons_of_pos _ (by simp)]

theorem levelLookup_cons_ne (p q : Nat) (l : LimitLevel)
    (rest : List (Nat × LimitLevel)) (h : q ≠ p) :
    levelLookup ((p, l) :: rest) q = levelLookup rest q := by
  unfold levelLookup
  rw [List.find?_cons_of_neg _ (by simpa using fun hc => h hc.symm)]

theorem headRemDec_of_not_mem (best fill : Nat)
    (s : List (Nat × LimitLevel)) (h : ∀ pl ∈ s, pl.1 ≠ best) :
    headRemDec best fill s = s := by
  unfold headRemDec
  rw [List.map_congr_left (fun pl hpl => by
    rw [if_neg (by simpa using h pl hpl)])]
  exact List.map_id _

theorem headRemDec_cons_head (best fill tq : Nat) (n : Node) (tl : List Node)
    (rts : List (Nat × LimitLevel)) (h : ∀ pl ∈ rts, pl.1 ≠ best) :
    headRemDec best fill ((best, ⟨n :: tl, tq⟩) :: rts) =
      (best, ⟨decNode n fill :: tl, tq⟩) :: rts := by
  unfold headRemDec
  rw [List.map_cons, if_pos (by simp)]
  have := headRemDec_of_not_mem best fill rts h
  unfold headRemDec at this
  rw [this]

theorem mem_tag_inj (ns : List Node) (h : (ns.map Node.tag).Nodup) :
    ∀ x ∈ ns, ∀ y ∈ ns, x.tag = y.tag → x = y :=
  fun x hx y hy hxy => List.inj_on_of_nodup_map h hx hy hxy

theorem find?_tag_nodup (ns : List Node) (n : Node)
    (h : (ns.map Node.tag).Nodup) (hn : n ∈ ns) :
    ns.find? (fun m => m.tag == n.tag) = some n :=
  find?_eq_some_of_unique ns _ n hn (by simp)
    (fun y hy hty => mem_tag_inj ns h y hy n hn (by simpa using hty))

theorem nodesIndexOK_replace (X Y : List Node) (n : Node) (fill : Nat)
    (idx : List (String × Nat)) (h : nodesIndexOK (X ++ n :: Y) idx) :
    nodesIndexOK (X ++ decNode n fill :: Y) idx := by
  obtain ⟨htags, hids, hlook, hkeys⟩ := h
  have htageq : (X ++ decNode n fill :: Y).map Node.tag =
      (X ++ n :: Y).map Node.tag := by simp [decNode]
  have hideq : (X ++ decNode n fill :: Y).map (fun m => m.ord.id) =
      (X ++ n :: Y).map (fun m => m.ord.id) := by simp [decNode]
  refine ⟨htageq ▸ htags, hideq ▸ hids, ?_, hkeys⟩
  intro m hm
  rcases List.mem_append.mp hm with hm | hm
  · exact hlook m (List.mem_append_left _ hm)
  · rcases List.mem_cons.mp hm with hm | hm
    · subst hm
      have := hlook n (List.mem_append_right _ (List.mem_cons_self _ _))
      simpa [decNode] using this
    · exact hlook m (List.mem_append_right _ (List.mem_cons_of_mem _ hm))

theorem nodesIndexOK_remove (X Y : List Node) (n : Node)
    (idx : List (String × Nat)) (h : nodesIndexOK (X ++ n :: Y) idx) :
    nodesIndexOK (X ++ Y) (alistErase idx n.ord.id) := by
  obtain ⟨htags, hids, hlook, hkeys⟩ := h
  have hsub : (X ++ Y).Sublist (X ++ n :: Y) :=
    List.Sublist.append_left (List.sublist_cons_self n Y) X
  have hidne : ∀ m ∈ X ++ Y, m.ord.id ≠ n.ord.id := by
    intro m hm hEq
    have hnd := hids
    rw [List.map_append, List.map_cons] at hnd
    rcases List.mem_append.mp hm with hmX | hmY
    · have h1 : m.ord.id ∈ X.map (fun m => m.ord.id) :=
        List.mem_map_of_mem _ hmX
      have hdisj := (List.nodup_append.mp hnd).2.2
      exact hdisj h1 (by simp [hEq])
    · have h2 := (List.nodup_append.mp hnd).2.1
      rcases List.nodup_cons.mp h2 with ⟨hnotin, -⟩
      exact hnotin (hEq ▸ List.mem_map_of_mem (fun m => m.ord.id) hmY)
  refine ⟨(List.Sublist.map Node.tag hsub).nodup htags,
    (List.Sublist.map _ hsub).nodup hids, ?_, ?_⟩
  · intro m hm
    rw [alistLookup_erase_ne _ _ _ (hidne m hm)]
    exact hlook m (hsub.mem hm)
  · exact (alistErase_keys_sublist idx n.ord.id).nodup hkeys

/-! ### Characterizing cancel_order on a FIFO head, and node projections -/

theorem cancel_order_pop_head (b1 : OrderBook) (cs : Side) (best tq : Nat)
    (n1 : Node) (tl : List Node) (rts : List (Nat × LimitLevel))
    (hcs : sideList b1 cs = (best, ⟨n1 :: tl, tq⟩) :: rts)
    (hside : n1.ord.side = cs) (hprice : n1.ord.price = best)
    (hlook : alistLookup b1.order_index n1.ord.id = some n1.tag)
    (hfind : b1.nodes.find? (fun m => m.tag == n1.tag) = some n1) :
    b1.cancel_order n1.ord.id =
      (true, setSide
        { b1 with order_index := alistErase b1.order_index n1.ord.id } cs
        (if tl.isEmpty then rts
         else (best, ⟨tl, tq - n1.ord.remaining_quantity⟩) :: rts)) := by
  unfold OrderBook.cancel_order OrderBook.derefTag
  rw [hlook]
  dsimp only
  rw [hfind]
  dsimp only
  cases cs
  · -- cs = BUY: the cancelled node rests on the bid side
    have hbids : b1.bids = (best, ⟨n1 :: tl, tq⟩) :: rts := hcs
    simp only [hside, if_pos rfl]
    rw [hbids, hprice, removeNode, if_pos (by simp)]
    rw [List.eraseP_cons_of_pos (by simp)]
    rcases tl with _ | ⟨m, tl'⟩
    · simp [setSide]
    · simp [setSide, List.isEmpty]
  · -- cs = SELL: the ask side
    have hasks : b1.asks = (best, ⟨n1 :: tl, tq⟩) :: rts := hcs
    rw [if_neg (by simp [hside])]
    rw [hasks, hprice, removeNode, if_pos (by simp)]
    rw [List.eraseP_cons_of_pos (by simp)]
    rcases tl with _ | ⟨m, tl'⟩
    · simp [setSide]
    · simp [setSide, List.isEmpty]

theorem sideNodes_removeNode_sublist (price t rem : Nat)
    (s : List (Nat × LimitLevel)) :
    (sideNodes (removeNode price t rem s)).Sublist (sideNodes s) := by
  induction s with
  | nil => simp [removeNode]
  | cons pl rest ih =>
    rcases pl with ⟨p, l⟩
    rw [removeNode]
    by_cases hp : p = price
    · rw [if_pos (by simpa using hp)]
      by_cases he : (l.orders.eraseP (fun n => n.tag == t)).isEmpty
      · rw [if_pos he, sideNodes_cons]
        exact (List.sublist_append_right _ _)
      · rw [if_neg he, sideNodes_cons, sideNodes_cons]
        exact List.Sublist.append (List.eraseP_sublist _) (List.Sublist.refl _)
    · rw [if_neg (by simpa using hp), sideNodes_cons, sideNodes_cons]
      exact List.Sublist.append (List.Sublist.refl _) ih

theorem cancel_sideNodes_sublist (b : OrderBook) (oid : String) (s : Side) :
    (sideNodes (sideList ((b.cancel_order oid).2) s)).Sublist
      (sideNodes (sideList b s)) := by
  unfold OrderBook.cancel_order
  cases alistLookup b.order_index oid with
  | none => exact List.Sublist.refl _
  | some t =>
    dsimp only
    cases b.derefTag t with
    | none => exact List.Sublist.refl _
    | some o =>
      dsimp only
      by_cases ho : o.side = Side.BUY
      · rw [if_pos ho]
        cases s
        · exact sideNodes_removeNode_sublist _ _ _ _
        · exact List.Sublist.refl _
      · rw [if_neg ho]
        cases s
        · exact List.Sublist.refl _
        · exact sideNodes_removeNode_sublist _ _ _ _

theorem headRemDec_nodes_map {α : Type} (price fill : Nat)
    (s : List (Nat × LimitLevel))
    (φ : Node → α) (hφ : ∀ n f, φ (decNode n f) = φ n) :
    (sideNodes (headRemDec price fill s)).map φ = (sideNodes s).map φ := by
  induction s with
  | nil => simp [headRemDec, sideNodes]
  | cons pl rest ih =>
    rcases pl with ⟨p, l⟩
    unfold headRemDec at ih ⊢
    rw [List.map_cons, sideNodes_cons, sideNodes_cons]
    by_cases hp : p = price
    · rw [if_pos (by simpa using hp)]
      cases hl : l.orders with
      | nil => simp only [hl, List.map_append, ih]
      | cons m ms =>
        simp only [List.map_append, ih, hl, List.map_cons, hφ]
    · rw [if_neg (by simpa using hp)]
      simp only [List.map_append, ih]

theorem decHead_sideNodes_map {α : Type} (b : OrderBook) (cs s : Side)
    (price fill : Nat) (φ : Node → α)
    (hφ : ∀ n f, φ (decNode n f) = φ n) :
    (sideNodes (sideList (decHeadRemaining b cs price fill) s)).map φ =
      (sideNodes (sideList b s)).map φ := by
  unfold decHeadRemaining
  by_cases hs : s = cs
  · subst hs
    rw [sideList_setSide_same]
    exact headRemDec_nodes_map _ _ _ _ hφ
  · rw [sideList_setSide_other _ _ _ _ hs]

theorem sideList_set_index (b : OrderBook) (idx : List (String × Nat))
    (s : Side) : sideList { b with order_index := idx } s = sideList b s := by
  cases s <;> rfl

theorem mem_nodes_of_sideList (b : OrderBook) (s : Side)
    {lvl : Nat × LimitLevel} {nd : Node} (h : lvl ∈ sideList b s)
    (hnd : nd ∈ lvl.2.orders) : nd ∈ b.nodes := by
  cases s
  · exact List.mem_append_left _ (mem_sideNodes_of_level h hnd)
  · exact List.mem_append_right _ (mem_sideNodes_of_level h hnd)

theorem decHead_book (ts : Side) (b : OrderBook) (best tq fill : Nat)
    (n : Node) (tl : List Node) (rts : List (Nat × LimitLevel))
    (hcs : sideList b (contra ts) = (best, ⟨n :: tl, tq⟩) :: rts)
    (hnotin : ∀ pl ∈ rts, pl.1 ≠ best) :
    sideList (decHeadRemaining b (contra ts) best fill) (contra ts) =
      (best, ⟨decNode n fill :: tl, tq⟩) :: rts ∧
    sideList (decHeadRemaining b (contra ts) best fill) ts = sideList b ts ∧
    (decHeadRemaining b (contra ts) best fill).order_index = b.order_index := by
  unfold decHeadRemaining
  refine ⟨?_, ?_, ?_⟩
  · rw [sideList_setSide_same, hcs, headRemDec_cons_head _ _ _ _ _ _ hnotin]
  · exact sideList_setSide_other _ _ _ _ (fun h => contra_ne ts h.symm)
  · exact setSide_order_index _ _ _

theorem nodes_setSide (b : OrderBook) (cs : Side)
    (lst : List (Nat × LimitLevel)) :
    (setSide b cs lst).nodes =
      (match cs with
       | Side.BUY => sideNodes lst ++ sideNodes b.asks
       | Side.SELL => sideNodes b.bids ++ sideNodes lst) := by
  cases cs <;> rfl

theorem rts_keys_ne_asks (b : OrderBook) (best tq : Nat) (lvl : LimitLevel)
    (rts : List (Nat × LimitLevel))
    (hsa : List.Sorted (· < ·) (b.asks.map Prod.fst))
    (hasks : b.asks = (best, lvl) :: rts) :
    ∀ pl ∈ rts, pl.1 ≠ best := by
  intro pl hpl
  rw [hasks] at hsa
  simp only [List.map_cons] at hsa
  rcases List.pairwise_cons.mp hsa with ⟨hlt, -⟩
  exact (Nat.ne_of_lt (hlt pl.1 (List.mem_map_of_mem Prod.fst hpl))).symm

theorem rts_keys_ne_bids (b : OrderBook) (best tq : Nat) (lvl : LimitLevel)
    (rts : List (Nat × LimitLevel))
    (hsb : List.Sorted (· > ·) (b.bids.map Prod.fst))
    (hbids : b.bids = (best, lvl) :: rts) :
    ∀ pl ∈ rts, pl.1 ≠ best := by
  intro pl hpl
  rw [hbids] at hsb
  simp only [List.map_cons] at hsb
  rcases List.pairwise_cons.mp hsb with ⟨hlt, -⟩
  exact Nat.ne_of_lt (hlt pl.1 (List.mem_map_of_mem Prod.fst hpl))

theorem iterWF_partial (ts : Side) (b : OrderBook) (best tq fill : Nat)
    (n : Node) (tl : List Node) (rts : List (Nat × LimitLevel)) (hWF : WF b)
    (hcs : sideList b (contra ts) = (best, ⟨n :: tl, tq⟩) :: rts)
    (hfill : fill < n.ord.remaining_quantity) :
    WF (decHeadRemaining b (contra ts) best fill) := by
  obtain ⟨hsb, hsa, hlb, hla, hnio⟩ := hWF
  cases ts
  case BUY =>
    have hasks : b.asks = (best, ⟨n :: tl, tq⟩) :: rts := hcs
    have hnotin := rts_keys_ne_asks b best tq _ rts hsa hasks
    have hbook : decHeadRemaining b (contra Side.BUY) best fill
        = { b with asks := (best, ⟨decNode n fill :: tl, tq⟩) :: rts } := by
      show { b with asks := headRemDec best fill b.asks } = _
      rw [hasks, headRemDec_cons_head _ _ _ _ _ _ hnotin]
    rw [hbook]
    have horig : levelNodesOK Side.SELL best ⟨n :: tl, tq⟩ :=
      hla (best, ⟨n :: tl, tq⟩) (by rw [hasks]; exact List.mem_cons_self _ _)
    refine ⟨hsb, ?_, hlb, ?_, ?_⟩
    · show List.Sorted (· < ·) (((best, (⟨decNode n fill :: tl, tq⟩ : LimitLevel))
        :: rts).map Prod.fst)
      rw [hasks] at hsa
      simpa using hsa
    · intro pl hpl
      rcases List.mem_cons.mp hpl with hpl | hpl
      · subst hpl
        refine ⟨by simp, ?_⟩
        intro nd hnd
        rcases List.mem_cons.mp hnd with hnd | hnd
        · subst hnd
          have hn := horig.2 n (List.mem_cons_self _ _)
          refine ⟨by simpa [decNode] using hn.1, by simpa [decNode] using hn.2.1, ?_⟩
          simp only [decNode]
          omega
        · exact horig.2 nd (List.mem_cons_of_mem _ hnd)
      · exact hla pl (by rw [hasks]; exact List.mem_cons_of_mem _ hpl)
    · have hX : b.nodes = sideNodes b.bids ++ (n :: (tl ++ sideNodes rts)) := by
        unfold OrderBook.nodes
        rw [hasks, sideNodes_cons]
        simp
      have hnio' : nodesIndexOK (sideNodes b.bids ++ (n :: (tl ++ sideNodes rts)))
          b.order_index := hX ▸ hnio
      have hrep := nodesIndexOK_replace _ _ n fill _ hnio'
      show nodesIndexOK (sideNodes b.bids ++
        sideNodes ((best, (⟨decNode n fill :: tl, tq⟩ : LimitLevel)) :: rts))
        b.order_index
      rw [sideNodes_cons]
      simpa using hrep
  case SELL =>
    have hbids : b.bids = (best, ⟨n :: tl, tq⟩) :: rts := hcs
    have hnotin := rts_keys_ne_bids b best tq _ rts hsb hbids
    have hbook : decHeadRemaining b (contra Side.SELL) best fill
        = { b with bids := (best, ⟨decNode n fill :: tl, tq⟩) :: rts } := by
      show { b with bids := headRemDec best fill b.bids } = _
      rw [hbids, headRemDec_cons_head _ _ _ _ _ _ hnotin]
    rw [hbook]
    have horig : levelNodesOK Side.BUY best ⟨n :: tl, tq⟩ :=
      hlb (best, ⟨n :: tl, tq⟩) (by rw [hbids]; exact List.mem_cons_self _ _)
    refine ⟨?_, hsa, ?_, hla, ?_⟩
    · show List.Sorted (· > ·) (((best, (⟨decNode n fill :: tl, tq⟩ : LimitLevel))
        :: rts).map Prod.fst)
      rw [hbids] at hsb
      simpa using hsb
    · intro pl hpl
      rcases List.mem_cons.mp hpl with hpl | hpl
      · subst hpl
        refine ⟨by simp, ?_⟩
        intro nd hnd
        rcases List.mem_cons.mp hnd with hnd | hnd
        · subst hnd
          have hn := horig.2 n (List.mem_cons_self _ _)
          refine ⟨by simpa [decNode] using hn.1, by simpa [decNode] using hn.2.1, ?_⟩
          simp only [decNode]
          omega
        · exact horig.2 nd (List.mem_cons_of_mem _ hnd)
      · exact hlb pl (by rw [hbids]; exact List.mem_cons_of_mem _ hpl)
    · have hX : b.nodes = [] ++ (n :: (tl ++ (sideNodes rts ++ sideNodes b.asks))) := by
        unfold OrderBook.nodes
        rw [hbids, sideNodes_cons]
        simp
      have hnio' : nodesIndexOK ([] ++ (n :: (tl ++ (sideNodes rts ++ sideNodes b.asks))))
          b.order_index := hX ▸ hnio
      have hrep := nodesIndexOK_replace _ _ n fill _ hnio'
      show nodesIndexOK (sideNodes ((best, (⟨decNode n fill :: tl, tq⟩ : LimitLevel))
        :: rts) ++ sideNodes b.asks) b.order_index
      rw [sideNodes_cons]
      simpa using hrep

theorem decHead_nodes_map {α : Type} (b : OrderBook) (cs : Side)
    (price fill : Nat) (φ : Node → α)
    (hφ : ∀ n f, φ (decNode n f) = φ n) :
    (decHeadRemaining b cs price fill).nodes.map φ = b.nodes.map φ := by
  rw [nodes_eq_sideLists (decHeadRemaining b cs price fill),
    nodes_eq_sideLists b]
  simp only [List.map_append]
  rw [decHead_sideNodes_map _ _ _ _ _ _ hφ, decHead_sideNodes_map _ _ _ _ _ _ hφ]

theorem iterFull (ts : Side) (b : OrderBook) (best tq : Nat) (n : Node)
    (tl : List Node) (rts : List (Nat × LimitLevel)) (hWF : WF b)
    (hcs : sideList b (contra ts) = (best, ⟨n :: tl, tq⟩) :: rts) :
    (decHeadRemaining b (contra ts) best
        n.ord.remaining_quantity).cancel_order n.ord.id =
      (true, setSide ⟨b.bids, b.asks, alistErase b.order_index n.ord.id⟩
        (contra ts)
        (if tl.isEmpty then rts else (best, ⟨tl, tq⟩) :: rts)) ∧
    WF (setSide ⟨b.bids, b.asks, alistErase b.order_index n.ord.id⟩
      (contra ts) (if tl.isEmpty then rts else (best, ⟨tl, tq⟩) :: rts)) ∧
    (setSide ⟨b.bids, b.asks, alistErase b.order_index n.ord.id⟩
      (contra ts) (if tl.isEmpty then rts else (best, ⟨tl, tq⟩) :: rts)).nodes.length
      + 1 = b.nodes.length := by
  obtain ⟨hsb, hsa, hlb, hla, hnio⟩ := hWF
  have hmemn : n ∈ b.nodes :=
    mem_nodes_of_sideList b (contra ts)
      (by rw [hcs]; exact List.mem_cons_self _ _) (List.mem_cons_self _ _)
  have hlvl : levelNodesOK (contra ts) best ⟨n :: tl, tq⟩ := by
    cases ts
    · exact hla (best, ⟨n :: tl, tq⟩) (by rw [show b.asks = _ from hcs]; exact List.mem_cons_self _ _)
    · exact hlb (best, ⟨n :: tl, tq⟩) (by rw [show b.bids = _ from hcs]; exact List.mem_cons_self _ _)
  have hside : n.ord.side = contra ts := (hlvl.2 n (List.mem_cons_self _ _)).1
  have hprice : n.ord.price = best := (hlvl.2 n (List.mem_cons_self _ _)).2.1
  have hnotin : ∀ pl ∈ rts, pl.1 ≠ best := by
    cases ts
    · exact rts_keys_ne_asks b best tq _ rts hsa hcs
    · exact rts_keys_ne_bids b best tq _ rts hsb hcs
  obtain ⟨hD1, hD2, hD3⟩ :=
    decHead_book ts b best tq n.ord.remaining_quantity n tl rts hcs hnotin
  have hdec0 : (decNode n n.ord.remaining_quantity).ord.remaining_quantity = 0 := by
    simp [decNode]
  have hlook : alistLookup
      (decHeadRemaining b (contra ts) best n.ord.remaining_quantity).order_index
      (decNode n n.ord.remaining_quantity).ord.id =
      some (decNode n n.ord.remaining_quantity).tag := by
    rw [hD3]
    have : (decNode n n.ord.remaining_quantity).ord.id = n.ord.id := rfl
    rw [this]
    exact hnio.2.2.1 n hmemn
  have hfind : (decHeadRemaining b (contra ts) best
      n.ord.remaining_quantity).nodes.find?
      (fun m => m.tag == (decNode n n.ord.remaining_quantity).tag) =
      some (decNode n n.ord.remaining_quantity) := by
    apply find?_tag_nodup
    · have := decHead_nodes_map b (contra ts) best n.ord.remaining_quantity
        Node.tag (fun _ _ => rfl)
      rw [this]
      exact hnio.1
    · exact mem_nodes_of_sideList _ (contra ts)
        (by rw [hD1]; exact List.mem_cons_self _ _) (List.mem_cons_self _ _)
  have pop := cancel_order_pop_head
    (decHeadRemaining b (contra ts) best n.ord.remaining_quantity)
    (contra ts) best tq (decNode n n.ord.remaining_quantity) tl rts
    hD1 (by simpa [decNode] using hside) (by simpa [decNode] using hprice)
    hlook hfind
  rw [hdec0] at pop
  have hdid : (decNode n n.ord.remaining_quantity).ord.id = n.ord.id := rfl
  rw [hdid] at pop
  have hBeq : setSide
      { decHeadRemaining b (contra ts) best n.ord.remaining_quantity with
        order_index := alistErase (decHeadRemaining b (contra ts) best
          n.ord.remaining_quantity).order_index n.ord.id } (contra ts)
      (if tl.isEmpty then rts else (best, ⟨tl, tq - 0⟩) :: rts) =
      setSide ⟨b.bids, b.asks, alistErase b.order_index n.ord.id⟩ (contra ts)
        (if tl.isEmpty then rts else (best, ⟨tl, tq⟩) :: rts) := by
    cases ts
    · show (⟨(decHeadRemaining b (contra Side.BUY) best
          n.ord.remaining_quantity).bids, _, _⟩ : OrderBook) = _
      have hbids : (decHeadRemaining b (contra Side.BUY) best
          n.ord.remaining_quantity).bids = b.bids := hD2
      rw [hD3, hbids]
      rfl
    · show (⟨_, (decHeadRemaining b (contra Side.SELL) best
          n.ord.remaining_quantity).asks, _⟩ : OrderBook) = _
      have hasks : (decHeadRemaining b (contra Side.SELL) best
          n.ord.remaining_quantity).asks = b.asks := hD2
      rw [hD3, hasks]
      rfl
  rw [hBeq] at pop
  refine ⟨pop, ?_, ?_⟩
  · -- WF of the post-cancel book
    cases ts
    · -- taker BUY, contra SELL: bids kept, ask head level popped
      have hasks : b.asks = (best, ⟨n :: tl, tq⟩) :: rts := hcs
      show WF ⟨b.bids, (if tl.isEmpty then rts else (best, ⟨tl, tq⟩) :: rts),
        alistErase b.order_index n.ord.id⟩
      have hX : b.nodes = sideNodes b.bids ++ (n :: (tl ++ sideNodes rts)) := by
        unfold OrderBook.nodes
        rw [hasks, sideNodes_cons]
        simp
      have hnio' : nodesIndexOK (sideNodes b.bids ++ (n :: (tl ++ sideNodes rts)))
          b.order_index := hX ▸ hnio
      have hrem := nodesIndexOK_remove _ _ n _ hnio'
      refine ⟨hsb, ?_, hlb, ?_, ?_⟩
      · rw [hasks] at hsa
        simp only [List.map_cons] at hsa
        by_cases htl : tl.isEmpty
        · rw [if_pos htl]
          exact (List.pairwise_cons.mp hsa).2
        · rw [if_neg htl]
          simpa using hsa
      · intro pl hpl
        by_cases htl : tl.isEmpty
        · rw [if_pos htl] at hpl
          exact hla pl (by rw [hasks]; exact List.mem_cons_of_mem _ hpl)
        · rw [if_neg htl] at hpl
          rcases List.mem_cons.mp hpl with hpl | hpl
          · subst hpl
            refine ⟨by simpa [List.isEmpty_iff] using htl, ?_⟩
            intro nd hnd
            exact hlvl.2 nd (List.mem_cons_of_mem _ hnd)
          · exact hla pl (by rw [hasks]; exact List.mem_cons_of_mem _ hpl)
      · show nodesIndexOK (sideNodes b.bids ++
          sideNodes (if tl.isEmpty then rts else (best, ⟨tl, tq⟩) :: rts))
          (alistErase b.order_index n.ord.id)
        by_cases htl : tl.isEmpty
        · rw [if_pos htl]
          have htlnil : tl = [] := by simpa [List.isEmpty_iff] using htl
          subst htlnil
          simpa using hrem
        · rw [if_neg htl, sideNodes_cons]
          simpa using hrem
    · -- taker SELL, contra BUY
      have hbids : b.bids = (best, ⟨n :: tl, tq⟩) :: rts := hcs
      show WF ⟨(if tl.isEmpty then rts else (best, ⟨tl, tq⟩) :: rts), b.asks,
        alistErase b.order_index n.ord.id⟩
      have hX : b.nodes = [] ++ (n :: (tl ++ (sideNodes rts ++ sideNodes b.asks))) := by
        unfold OrderBook.nodes
        rw [hbids, sideNodes_cons]
        simp
      have hnio' : nodesIndexOK
          ([] ++ (n :: (tl ++ (sideNodes rts ++ sideNodes b.asks))))
          b.order_index := hX ▸ hnio
      have hrem := nodesIndexOK_remove _ _ n _ hnio'
      refine ⟨?_, hsa, ?_, hla, ?_⟩
      · rw [hbids] at hsb
        simp only [List.map_cons] at hsb
        by_cases htl : tl.isEmpty
        · rw [if_pos htl]
          exact (List.pairwise_cons.mp hsb).2
        · rw [if_neg htl]
          simpa using hsb
      · intro pl hpl
        by_cases htl : tl.isEmpty
        · rw [if_pos htl] at hpl
          exact hlb pl (by rw [hbids]; exact List.mem_cons_of_mem _ hpl)
        · rw [if_neg htl] at hpl
          rcases List.mem_cons.mp hpl with hpl | hpl
          · subst hpl
            refine ⟨by simpa [List.isEmpty_iff] using htl, ?_⟩
            intro nd hnd
            exact hlvl.2 nd (List.mem_cons_of_mem _ hnd)
          · exact hlb pl (by rw [hbids]; exact List.mem_cons_of_mem _ hpl)
      · show nodesIndexOK
          (sideNodes (if tl.isEmpty then rts else (best, ⟨tl, tq⟩) :: rts) ++
            sideNodes b.asks)
          (alistErase b.order_index n.ord.id)
        by_cases htl : tl.isEmpty
        · rw [if_pos htl]
          have htlnil : tl = [] := by simpa [List.isEmpty_iff] using htl
          subst htlnil
          simpa using hrem
        · rw [if_neg htl, sideNodes_cons]
          simpa using hrem
  · -- count decreases by one
    cases ts
    · have hasks : b.asks = (best, ⟨n :: tl, tq⟩) :: rts := hcs
      show (sideNodes b.bids ++
        sideNodes (if tl.isEmpty then rts else (best, ⟨tl, tq⟩) :: rts)).length
        + 1 = b.nodes.length
      unfold OrderBook.nodes
      rw [hasks, sideNodes_cons]
      by_cases htl : tl.isEmpty
      · have htlnil : tl = [] := by simpa [List.isEmpty_iff] using htl
        subst htlnil
        simp
        try omega
      · rw [if_neg htl, sideNodes_cons]
        simp
        try omega
    · have hbids : b.bids = (best, ⟨n :: tl, tq⟩) :: rts := hcs
      show (sideNodes (if tl.isEmpty then rts else (best, ⟨tl, tq⟩) :: rts) ++
        sideNodes b.asks).length + 1 = b.nodes.length
      unfold OrderBook.nodes
      rw [hbids, sideNodes_cons]
      by_cases htl : tl.isEmpty
      · have htlnil : tl = [] := by simpa [List.isEmpty_iff] using htl
        subst htlnil
        simp
        try omega
      · rw [if_neg htl, sideNodes_cons]
        simp
        try omega

/-! ### matchLoop branch equations -/

theorem matchLoop_zero (cp : Bool) (o : Order) (b : OrderBook) (c : Nat) :
    matchLoop cp 0 o b c = (o, b, [], c) := rfl

theorem matchLoop_done (cp : Bool) (fuel : Nat) (o : Order) (b : OrderBook)
    (c : Nat) (h : o.remaining_quantity = 0) :
    matchLoop cp (fuel + 1) o b c = (o, b, [], c) := by
  simp [matchLoop, h]

theorem loop_of_rem_zero (cp : Bool) (fuel : Nat) (o : Order) (b : OrderBook)
    (c : Nat) (h : o.remaining_quantity = 0) :
    matchLoop cp fuel o b c = (o, b, [], c) := by
  cases fuel with
  | zero => rfl
  | succ fuel => exact matchLoop_done cp fuel o b c h

theorem matchLoop_noContra (cp : Bool) (fuel : Nat) (o : Order) (b : OrderBook)
    (c : Nat) (h : bestContra b o.side = none) :
    matchLoop cp (fuel + 1) o b c = (o, b, [], c) := by
  by_cases h0 : o.remaining_quantity = 0
  · exact matchLoop_done cp fuel o b c h0
  · simp [matchLoop, h0, h]

theorem loop_of_empty_contra (cp : Bool) (fuel : Nat) (o : Order)
    (b : OrderBook) (c : Nat) (h : sideList b (contra o.side) = []) :
    matchLoop cp fuel o b c = (o, b, [], c) := by
  cases fuel with
  | zero => rfl
  | succ fuel =>
    apply matchLoop_noContra
    rw [bestContra_eq, h]
    rfl

theorem matchLoop_notMarketable (cp : Bool) (fuel : Nat) (o : Order)
    (b : OrderBook) (c : Nat) (best : Nat)
    (h0 : ¬o.remaining_quantity = 0)
    (hb : bestContra b o.side = some best)
    (hm : (cp && !marketable o best) = true) :
    matchLoop cp (fuel + 1) o b c = (o, b, [], c) := by
  simp only [matchLoop, h0, if_false, hb, hm]
  rfl

theorem matchLoop_step (cp : Bool) (fuel : Nat) (o : Order) (b : OrderBook)
    (c : Nat) (best : Nat) (n : Node) (tl : List Node)
    (h0 : ¬o.remaining_quantity = 0)
    (hb : bestContra b o.side = some best)
    (hm : (cp && !marketable o best) = false)
    (hl : b.get_orders_at_price (contra o.side) best = some (n :: tl)) :
    matchLoop cp (fuel + 1) o b c =
      ((fun r => (r.1, r.2.1,
          generate_trade (c + 1) n.ord o
            (min o.remaining_quantity n.ord.remaining_quantity) :: r.2.2.1,
          r.2.2.2))
        (matchLoop cp fuel
          { o with remaining_quantity :=
              o.remaining_quantity - min o.remaining_quantity n.ord.remaining_quantity }
          (if n.ord.remaining_quantity -
              min o.remaining_quantity n.ord.remaining_quantity = 0 then
            ((decHeadRemaining b (contra o.side) best
              (min o.remaining_quantity n.ord.remaining_quantity)).cancel_order
              n.ord.id).2
           else decHeadRemaining b (contra o.side) best
              (min o.remaining_quantity n.ord.remaining_quantity))
          (c + 1))) := by
  simp only [matchLoop, h0, if_false, hb, hm, hl]
  rfl

theorem matchLoop_noLevel (cp : Bool) (fuel : Nat) (o : Order) (b : OrderBook)
    (c : Nat) (best : Nat)
    (h0 : ¬o.remaining_quantity = 0)
    (hb : bestContra b o.side = some best)
    (hm : (cp && !marketable o best) = false)
    (hl : b.get_orders_at_price (contra o.side) best = none) :
    matchLoop cp (fuel + 1) o b c = (o, b, [], c) := by
  simp only [matchLoop, h0, if_false, hb, hm, hl]
  rfl

theorem matchLoop_emptyLevel (cp : Bool) (fuel : Nat) (o : Order)
    (b : OrderBook) (c : Nat) (best : Nat)
    (h0 : ¬o.remaining_quantity = 0)
    (hb : bestContra b o.side = some best)
    (hm : (cp && !marketable o best) = false)
    (hl : b.get_orders_at_price (contra o.side) best = some []) :
    matchLoop cp (fuel + 1) o b c = (o, b, [], c) := by
  simp only [matchLoop, h0, if_false, hb, hm, hl]
  rfl

theorem bestContra_some (b : OrderBook) (ts : Side) (best : Nat)
    (lvl : LimitLevel) (rts : List (Nat × LimitLevel))
    (hcs : sideList b (contra ts) = (best, lvl) :: rts) :
    bestContra b ts = some best := by
  rw [bestContra_eq, hcs]
  rfl

theorem get_orders_head (b : OrderBook) (ts : Side) (best : Nat)
    (lvl : LimitLevel) (rts : List (Nat × LimitLevel))
    (hcs : sideList b (contra ts) = (best, lvl) :: rts) :
    b.get_orders_at_price (contra ts) best = some lvl.orders := by
  rw [get_orders_at_price_eq, hcs, levelLookup_cons_self]
  rfl

/-! ### C8: trade-id sequencing -/

theorem loop_trade_ids (cp : Bool) (fuel : Nat) :
    ∀ (o : Order) (b : OrderBook) (c : Nat),
    ((matchLoop cp fuel o b c).2.2.1).map Trade.trade_id =
      (List.range (matchLoop cp fuel o b c).2.2.1.length).map
        (fun i => fmtTradeId (c + 1 + i)) ∧
    (matchLoop cp fuel o b c).2.2.2 = c + (matchLoop cp fuel o b c).2.2.1.length := by
  induction fuel with
  | zero => intro o b c; simp [matchLoop]
  | succ fuel ih =>
    intro o b c
    by_cases h0 : o.remaining_quantity = 0
    · rw [matchLoop_done _ _ _ _ _ h0]; simp
    · cases hb : bestContra b o.side with
      | none => rw [matchLoop_noContra _ _ _ _ _ hb]; simp
      | some best =>
        by_cases hm : (cp && !marketable o best) = true
        · rw [matchLoop_notMarketable _ _ _ _ _ _ h0 hb hm]; simp
        · rw [Bool.not_eq_true] at hm
          cases hl : b.get_orders_at_price (contra o.side) best with
          | none => rw [matchLoop_noLevel _ _ _ _ _ _ h0 hb hm hl]; simp
          | some lvl =>
            cases lvl with
            | nil => rw [matchLoop_emptyLevel _ _ _ _ _ _ h0 hb hm hl]; simp
            | cons n tl =>
              rw [matchLoop_step _ _ _ _ _ _ _ _ h0 hb hm hl]
              obtain ⟨ih1, ih2⟩ := ih
                { o with remaining_quantity :=
                    o.remaining_quantity - min o.remaining_quantity n.ord.remaining_quantity }
                (if n.ord.remaining_quantity -
                    min o.remaining_quantity n.ord.remaining_quantity = 0 then
                  ((decHeadRemaining b (contra o.side) best
                    (min o.remaining_quantity n.ord.remaining_quantity)).cancel_order
                    n.ord.id).2
                 else decHeadRemaining b (contra o.side) best
                    (min o.remaining_quantity n.ord.remaining_quantity))
                (c + 1)
              refine ⟨?_, ?_⟩
              · simp only [List.map_cons, List.length_cons, ih1,
                  List.range_succ_eq_map, List.map_map]
                congr 1
                apply List.map_congr_left
                intro i hi
                simp only [Function.comp]
                congr 1
                omega
              · simp only [List.length_cons, ih2]
                omega


theorem emitted_eq (e : MatchingEngine) (o : Order) :
    (process_order e o).trade_history = e.trade_history ++ emitted e o ∧
    (process_order e o).trade_counter = e.trade_counter + (emitted e o).length ∧
    (emitted e o).map Trade.trade_id =
      (List.range (emitted e o).length).map
        (fun i => fmtTradeId (e.trade_counter + 1 + i)) := by
  unfold emitted process_order
  cases hty : o.type
  case MARKET =>
    unfold match_market_order
    simp only [List.drop_left]
    exact ⟨by simp, (loop_trade_ids _ _ _ _ _).2, (loop_trade_ids _ _ _ _ _).1⟩
  case LIMIT =>
    unfold match_limit_order
    simp only [List.drop_left]
    exact ⟨by simp, (loop_trade_ids _ _ _ _ _).2, (loop_trade_ids _ _ _ _ _).1⟩
  case IOC =>
    unfold match_ioc_order
    simp only [List.drop_left]
    exact ⟨by simp, (loop_trade_ids _ _ _ _ _).2, (loop_trade_ids _ _ _ _ _).1⟩
  case FOK =>
    unfold match_fok_order
    by_cases hcf : can_fill_completely o (e.getBook o.symbol)
    · simp only [hcf, if_true, List.drop_left]
      exact ⟨by simp, (loop_trade_ids _ _ _ _ _).2, (loop_trade_ids _ _ _ _ _).1⟩
    · simp only [hcf, if_false, List.drop_left]
      simp

/-- C8: from a fresh engine, the trade history's ids are exactly
`fmtTradeId 1, fmtTradeId 2, …` ("T0001", "T0002", …) in emission order
with no gaps, and the counter has been incremented exactly once per
emitted trade. -/
theorem C8_trade_ids_sequential (orders : List Order) :
    ((runEngine orders).trade_history).map Trade.trade_id =
      (List.range (runEngine orders).trade_history.length).map
        (fun i => fmtTradeId (i + 1)) ∧
    (runEngine orders).trade_counter =
      (runEngine orders).trade_history.length := by
  suffices h : ∀ (os : List Order) (e : MatchingEngine),
      (e.trade_history.map Trade.trade_id =
        (List.range e.trade_history.length).map (fun i => fmtTradeId (i + 1)) ∧
       e.trade_counter = e.trade_history.length) →
      ((os.foldl process_order e).trade_history.map Trade.trade_id =
        (List.range (os.foldl process_order e).trade_history.length).map
          (fun i => fmtTradeId (i + 1)) ∧
       (os.foldl process_order e).trade_counter =
        (os.foldl process_order e).trade_history.length) by
    exact h orders MatchingEngine.mk0 (by simp [MatchingEngine.mk0])
  intro os
  induction os with
  | nil => intro e he; simpa using he
  | cons o rest ih =>
    intro e he
    apply ih
    obtain ⟨hh, hc, hids⟩ := emitted_eq e o
    refine ⟨?_, ?_⟩
    · rw [hh, List.map_append, he.1, hids, he.2, List.length_append,
        List.range_add, List.map_append, List.map_map]
      congr 1
      apply List.map_congr_left
      intro i hi
      simp only [Function.comp]
      congr 1
      omega
    · rw [hh, hc, he.2, List.length_append]

/-! ### C5: trades are priced at the resting maker's limit price -/

theorem levelLookup_mem (s : List (Nat × LimitLevel)) (p : Nat)
    (l : LimitLevel) (h : levelLookup s p = some l) : ∃ pl ∈ s, pl.2 = l := by
  unfold levelLookup at h
  cases hf : s.find? (fun pl => pl.1 == p) with
  | none => rw [hf] at h; cases h
  | some pl =>
    rw [hf] at h
    exact ⟨pl, List.mem_of_find?_eq_some hf, by injection h⟩

theorem get_orders_some_mem (b : OrderBook) (s : Side) (p : Nat)
    (os : List Node) (h : b.get_orders_at_price s p = some os) :
    ∀ nd ∈ os, nd ∈ sideNodes (sideList b s) := by
  rw [get_orders_at_price_eq] at h
  rcases Option.map_eq_some'.mp h with ⟨l, hl, hlo⟩
  rcases levelLookup_mem _ _ _ hl with ⟨pl, hpl, hpl2⟩
  intro nd hnd
  exact mem_sideNodes_of_level hpl (by rw [hpl2, hlo]; exact hnd)

theorem loop_maker (cp : Bool) (fuel : Nat) :
    ∀ (o : Order) (b : OrderBook) (c : Nat),
    ∀ t ∈ (matchLoop cp fuel o b c).2.2.1,
      ∃ nd ∈ sideNodes (sideList b (contra o.side)),
        t.price = nd.ord.price ∧ t.maker_order_id = nd.ord.id ∧
        t.taker_order_id = o.id ∧ t.aggressor_side = o.side := by
  induction fuel with
  | zero => intro o b c t ht; simp [matchLoop] at ht
  | succ fuel ih =>
    intro o b c t ht
    by_cases h0 : o.remaining_quantity = 0
    · rw [matchLoop_done _ _ _ _ _ h0] at ht; simp at ht
    · cases hb : bestContra b o.side with
      | none => rw [matchLoop_noContra _ _ _ _ _ hb] at ht; simp at ht
      | some best =>
        by_cases hm : (cp && !marketable o best) = true
        · rw [matchLoop_notMarketable _ _ _ _ _ _ h0 hb hm] at ht; simp at ht
        · rw [Bool.not_eq_true] at hm
          cases hl : b.get_orders_at_price (contra o.side) best with
          | none => rw [matchLoop_noLevel _ _ _ _ _ _ h0 hb hm hl] at ht; simp at ht
          | some lvl =>
            cases lvl with
            | nil =>
              rw [matchLoop_emptyLevel _ _ _ _ _ _ h0 hb hm hl] at ht; simp at ht
            | cons n tl =>
              rw [matchLoop_step _ _ _ _ _ _ _ _ h0 hb hm hl] at ht
              simp only [List.mem_cons] at ht
              rcases ht with ht | ht
              · subst ht
                exact ⟨n, get_orders_some_mem b _ best _ hl n (List.mem_cons_self _ _),
                  rfl, rfl, rfl, rfl⟩
              · have hrec := ih
                  { o with remaining_quantity :=
                      o.remaining_quantity - min o.remaining_quantity n.ord.remaining_quantity }
                  (if n.ord.remaining_quantity -
                      min o.remaining_quantity n.ord.remaining_quantity = 0 then
                    ((decHeadRemaining b (contra o.side) best
                      (min o.remaining_quantity n.ord.remaining_quantity)).cancel_order
                      n.ord.id).2
                   else decHeadRemaining b (contra o.side) best
                      (min o.remaining_quantity n.ord.remaining_quantity))
                  (c + 1) t ht
                rcases hrec with ⟨nd, hnd, hp, hmk, htk, hag⟩
                have hphi : (nd.ord.id, nd.ord.price) ∈
                    (sideNodes (sideList b (contra o.side))).map
                      (fun m => (m.ord.id, m.ord.price)) := by
                  by_cases hone : n.ord.remaining_quantity -
                      min o.remaining_quantity n.ord.remaining_quantity = 0
                  · rw [if_pos hone] at hnd
                    have hsub := (cancel_sideNodes_sublist
                      (decHeadRemaining b (contra o.side) best
                        (min o.remaining_quantity n.ord.remaining_quantity))
                      n.ord.id (contra o.side)).mem hnd
                    have := List.mem_map_of_mem
                      (fun m => (m.ord.id, m.ord.price)) hsub
                    rwa [decHead_sideNodes_map _ _ _ _ _
                      (fun m => (m.ord.id, m.ord.price)) (fun _ _ => rfl)] at this
                  · rw [if_neg hone] at hnd
                    have := List.mem_map_of_mem
                      (fun m => (m.ord.id, m.ord.price)) hnd
                    rwa [decHead_sideNodes_map _ _ _ _ _
                      (fun m => (m.ord.id, m.ord.price)) (fun _ _ => rfl)] at this
                rcases List.mem_map.mp hphi with ⟨nd0, hnd0, hφ⟩
                refine ⟨nd0, hnd0, ?_, ?_, htk, hag⟩
                · rw [hp]
                  exact (congrArg Prod.snd hφ).symm
                · rw [hmk]
                  exact (congrArg Prod.fst hφ).symm

/-- C5: every trade a process_order call emits is priced at the price field
of an order resting on the contra side of the book when the call began (the
maker identified by maker_order_id), never at the incoming taker's price;
the incoming order is recorded as taker and aggressor.  Holds for all four
order types. -/
theorem C5_trades_at_maker_price (e : MatchingEngine) (o : Order) :
    ∀ t ∈ emitted e o,
      ∃ nd ∈ sideNodes (sideList (e.getBook o.symbol) (contra o.side)),
        t.price = nd.ord.price ∧ t.maker_order_id = nd.ord.id ∧
        t.taker_order_id = o.id ∧ t.aggressor_side = o.side := by
  unfold emitted process_order
  cases hty : o.type
  case MARKET =>
    unfold match_market_order
    simp only [List.drop_left]
    exact loop_maker _ _ _ _ _
  case LIMIT =>
    unfold match_limit_order
    simp only [List.drop_left]
    exact loop_maker _ _ _ _ _
  case IOC =>
    unfold match_ioc_order
    simp only [List.drop_left]
    exact loop_maker _ _ _ _ _
  case FOK =>
    unfold match_fok_order
    by_cases hcf : can_fill_completely o (e.getBook o.symbol)
    · simp only [hcf, if_true, List.drop_left]
      exact loop_maker _ _ _ _ _
    · simp only [hcf, if_false, List.drop_left]
      intro t ht
      simp at ht

theorem C5_trades_at_maker_price_witness :
    ((⟨"T0001", "B", "A", "M", 100, 3, Side.BUY, 0⟩ : Trade) ∈
      emitted (runEngine [⟨"A", "B", Side.SELL, OrderType.LIMIT, 100, 5, 5, 1⟩])
        (⟨"M", "B", Side.BUY, OrderType.MARKET, 0, 3, 3, 2⟩ : Order)) ∧
    (∃ nd ∈ sideNodes (sideList
        ((runEngine [⟨"A", "B", Side.SELL, OrderType.LIMIT, 100, 5, 5, 1⟩]).getBook "B")
        (contra Side.BUY)),
      (100 : Nat) = nd.ord.price ∧ ("A" : String) = nd.ord.id ∧
      ("M" : String) = "M" ∧ Side.BUY = Side.BUY) :=
  ⟨by decide,
    C5_trades_at_maker_price
      (runEngine [⟨"A", "B", Side.SELL, OrderType.LIMIT, 100, 5, 5, 1⟩])
      (⟨"M", "B", Side.BUY, OrderType.MARKET, 0, 3, 3, 2⟩ : Order)
      (⟨"T0001", "B", "A", "M", 100, 3, Side.BUY, 0⟩ : Trade) (by decide)⟩

/-! ### Loop-level book facts -/

theorem noWorse_refl (ts : Side) (p : Nat) : noWorse ts p p := by
  cases ts <;> simp [noWorse]

theorem noWorse_trans (ts : Side) (p q r : Nat) (h1 : noWorse ts p q)
    (h2 : noWorse ts q r) : noWorse ts p r := by
  cases ts <;> simp [noWorse] at * <;> omega

theorem min_full (a b : Nat) (h : b - min a b = 0) : min a b = b := by
  rcases Nat.le_total a b with hab | hba
  · rw [Nat.min_eq_left hab] at h ⊢
    omega
  · rw [Nat.min_eq_right hba]

theorem head_shape (b : OrderBook) (ts : Side) (best : Nat)
    (hb : bestContra b ts = some best) :
    ∃ lvl rts, sideList b (contra ts) = (best, lvl) :: rts := by
  rw [bestContra_eq] at hb
  cases hcs : sideList b (contra ts) with
  | nil => rw [hcs] at hb; cases hb
  | cons pl rts =>
    rw [hcs] at hb
    rcases pl with ⟨p, l⟩
    simp only [List.head?_cons, Option.map_some] at hb
    injection hb with hb
    have hpb : p = best := hb
    subst hpb
    exact ⟨l, rts, rfl⟩

theorem head_level_eta (b : OrderBook) (ts : Side) (best : Nat)
    (lvl : LimitLevel) (rts : List (Nat × LimitLevel)) (os : List Node)
    (hcs : sideList b (contra ts) = (best, lvl) :: rts)
    (hl : b.get_orders_at_price (contra ts) best = some os) :
    sideList b (contra ts) = (best, ⟨os, lvl.total_quantity⟩) :: rts := by
  rw [get_orders_head b ts best lvl rts hcs] at hl
  injection hl with hl
  rw [hcs]
  cases lvl
  simp at hl
  rw [hl]

theorem hnotin_of_WF (ts : Side) (b : OrderBook) (best : Nat)
    (lvl : LimitLevel) (rts : List (Nat × LimitLevel)) (hWF : WF b)
    (hcs : sideList b (contra ts) = (best, lvl) :: rts) :
    ∀ pl ∈ rts, pl.1 ≠ best := by
  obtain ⟨hsb, hsa, -⟩ := hWF
  cases ts
  · exact rts_keys_ne_asks b best lvl.total_quantity lvl rts hsa hcs
  · exact rts_keys_ne_bids b best lvl.total_quantity lvl rts hsb hcs

theorem sideList_mk (bb aa : List (Nat × LimitLevel))
    (ii : List (String × Nat)) (s : Side) :
    sideList ⟨bb, aa, ii⟩ s = (match s with
      | Side.BUY => bb
      | Side.SELL => aa) := by
  cases s <;> rfl

theorem loop_book_facts (cp : Bool) (fuel : Nat) :
    ∀ (o : Order) (b : OrderBook) (c : Nat), WF b →
    WF (matchLoop cp fuel o b c).2.1 ∧
    sideList (matchLoop cp fuel o b c).2.1 o.side = sideList b o.side ∧
    ((sideList (matchLoop cp fuel o b c).2.1 (contra o.side)).map Prod.fst).Sublist
      ((sideList b (contra o.side)).map Prod.fst) ∧
    (matchLoop cp fuel o b c).1 =
      { o with remaining_quantity := (matchLoop cp fuel o b c).1.remaining_quantity } := by
  induction fuel with
  | zero =>
    intro o b c hWF
    rw [matchLoop_zero]
    exact ⟨hWF, rfl, List.Sublist.refl _, rfl⟩
  | succ fuel ih =>
    intro o b c hWF
    by_cases h0 : o.remaining_quantity = 0
    · rw [matchLoop_done _ _ _ _ _ h0]
      exact ⟨hWF, rfl, List.Sublist.refl _, rfl⟩
    · cases hb : bestContra b o.side with
      | none =>
        rw [matchLoop_noContra _ _ _ _ _ hb]
        exact ⟨hWF, rfl, List.Sublist.refl _, rfl⟩
      | some best =>
        by_cases hm : (cp && !marketable o best) = true
        · rw [matchLoop_notMarketable _ _ _ _ _ _ h0 hb hm]
          exact ⟨hWF, rfl, List.Sublist.refl _, rfl⟩
        · rw [Bool.not_eq_true] at hm
          cases hl : b.get_orders_at_price (contra o.side) best with
          | none =>
            rw [matchLoop_noLevel _ _ _ _ _ _ h0 hb hm hl]
            exact ⟨hWF, rfl, List.Sublist.refl _, rfl⟩
          | some lvl =>
            cases lvl with
            | nil =>
              rw [matchLoop_emptyLevel _ _ _ _ _ _ h0 hb hm hl]
              exact ⟨hWF, rfl, List.Sublist.refl _, rfl⟩
            | cons n tl =>
              rw [matchLoop_step _ _ _ _ _ _ _ _ h0 hb hm hl]
              rcases head_shape b o.side best hb with ⟨lvl0, rts, hcs0⟩
              have hcs := head_level_eta b o.side best lvl0 rts _ hcs0 hl
              by_cases hone : n.ord.remaining_quantity -
                  min o.remaining_quantity n.ord.remaining_quantity = 0
              · -- full fill of the resting head
                have hmin : min o.remaining_quantity n.ord.remaining_quantity =
                    n.ord.remaining_quantity := min_full _ _ hone
                obtain ⟨hpop, hWF2, hcount⟩ :=
                  iterFull o.side b best lvl0.total_quantity n tl rts hWF hcs
                have hbook : (if n.ord.remaining_quantity -
                    min o.remaining_quantity n.ord.remaining_quantity = 0 then
                    ((decHeadRemaining b (contra o.side) best
                      (min o.remaining_quantity n.ord.remaining_quantity)).cancel_order
                      n.ord.id).2
                   else decHeadRemaining b (contra o.side) best
                      (min o.remaining_quantity n.ord.remaining_quantity)) =
                    setSide ⟨b.bids, b.asks, alistErase b.order_index n.ord.id⟩
                      (contra o.side)
                      (if tl.isEmpty then rts
                       else (best, ⟨tl, lvl0.total_quantity⟩) :: rts) := by
                  rw [if_pos hone, hmin, hpop]
                rw [hbook]
                obtain ⟨ihWF, ihts, ihsub, ihord⟩ := ih
                  { o with remaining_quantity :=
                      o.remaining_quantity - min o.remaining_quantity n.ord.remaining_quantity }
                  (setSide ⟨b.bids, b.asks, alistErase b.order_index n.ord.id⟩
                    (contra o.side)
                    (if tl.isEmpty then rts
                     else (best, ⟨tl, lvl0.total_quantity⟩) :: rts))
                  (c + 1) hWF2
                refine ⟨ihWF, ?_, ?_, ?_⟩
                · refine ihts.trans ?_
                  rw [sideList_setSide_other _ _ _ _ (fun h => contra_ne o.side h.symm),
                    sideList_mk]
                  cases o.side <;> rfl
                · refine List.Sublist.trans ihsub ?_
                  rw [sideList_setSide_same, hcs]
                  by_cases htl : tl.isEmpty
                  · rw [if_pos htl]
                    simp only [List.map_cons]
                    exact (List.sublist_cons_self _ _)
                  · rw [if_neg htl]
                    simp only [List.map_cons]
                    exact List.Sublist.cons₂ _ (List.Sublist.refl _)
                · exact ihord
              · -- partial fill: the taker is exhausted and the loop stops
                have hlt : min o.remaining_quantity n.ord.remaining_quantity <
                    n.ord.remaining_quantity := by omega
                have hrem0 : ({ o with remaining_quantity :=
                    o.remaining_quantity - min o.remaining_quantity n.ord.remaining_quantity } :
                    Order).remaining_quantity = 0 := by
                  show o.remaining_quantity -
                    min o.remaining_quantity n.ord.remaining_quantity = 0
                  have := Nat.min_le_left o.remaining_quantity n.ord.remaining_quantity
                  have := Nat.min_le_right o.remaining_quantity n.ord.remaining_quantity
                  omega
                rw [if_neg hone, loop_of_rem_zero _ _ _ _ _ hrem0]
                obtain ⟨hD1, hD2, hD3⟩ := decHead_book o.side b best
                  lvl0.total_quantity
                  (min o.remaining_quantity n.ord.remaining_quantity) n tl rts hcs
                  (hnotin_of_WF o.side b best _ rts hWF hcs0)
                refine ⟨?_, hD2, ?_, rfl⟩
                · exact iterWF_partial o.side b best lvl0.total_quantity _ n tl rts
                    hWF hcs hlt
                · rw [hD1, hcs]
                  simp

/-! ### C6: price monotonicity and FIFO consumption -/

theorem levelNodesOK_of_head (ts : Side) (b : OrderBook) (best : Nat)
    (lvl : LimitLevel) (rts : List (Nat × LimitLevel)) (hWF : WF b)
    (hcs : sideList b (contra ts) = (best, lvl) :: rts) :
    levelNodesOK (contra ts) best lvl := by
  obtain ⟨-, -, hlb, hla, -⟩ := hWF
  cases ts
  · exact hla (best, lvl)
      (by rw [show b.asks = _ from hcs]; exact List.mem_cons_self _ _)
  · exact hlb (best, lvl)
      (by rw [show b.bids = _ from hcs]; exact List.mem_cons_self _ _)

theorem head_rel_of_sorted (ts : Side) (b : OrderBook) (best0 : Nat)
    (lvl0 : LimitLevel) (rts0 : List (Nat × LimitLevel)) (hWF : WF b)
    (hcs0 : sideList b (contra ts) = (best0, lvl0) :: rts0)
    (best1 : Nat) (lvl1 : LimitLevel) (rts1 : List (Nat × LimitLevel))
    (h : rts0 = (best1, lvl1) :: rts1) :
    noWorse ts best0 best1 := by
  obtain ⟨hsb, hsa, -⟩ := hWF
  cases ts
  · have hasks : b.asks = (best0, lvl0) :: rts0 := hcs0
    rw [hasks, h] at hsa
    simp only [List.map_cons] at hsa
    have := (List.pairwise_cons.mp hsa).1 best1 (by simp)
    show best0 ≤ best1
    omega
  · have hbids : b.bids = (best0, lvl0) :: rts0 := hcs0
    rw [hbids, h] at hsb
    simp only [List.map_cons] at hsb
    have := (List.pairwise_cons.mp hsb).1 best1 (by simp)
    show best1 ≤ best0
    omega

theorem loop_price_lb (cp : Bool) (fuel : Nat) :
    ∀ (o : Order) (b : OrderBook) (c : Nat), WF b →
    ∀ (best0 : Nat) (lvl0 : LimitLevel) (rts0 : List (Nat × LimitLevel)),
    sideList b (contra o.side) = (best0, lvl0) :: rts0 →
    ∀ t ∈ (matchLoop cp fuel o b c).2.2.1, noWorse o.side best0 t.price := by
  induction fuel with
  | zero => intro o b c _ best0 lvl0 rts0 _ t ht; simp [matchLoop] at ht
  | succ fuel ih =>
    intro o b c hWF best0 lvl0 rts0 hcs0 t ht
    by_cases h0 : o.remaining_quantity = 0
    · rw [matchLoop_done _ _ _ _ _ h0] at ht; simp at ht
    · cases hb : bestContra b o.side with
      | none => rw [matchLoop_noContra _ _ _ _ _ hb] at ht; simp at ht
      | some best =>
        have hbb : best = best0 := by
          rw [bestContra_some b o.side best0 lvl0 rts0 hcs0] at hb
          injection hb with hb
          exact hb.symm
        subst hbb
        by_cases hm : (cp && !marketable o best) = true
        · rw [matchLoop_notMarketable _ _ _ _ _ _ h0 hb hm] at ht; simp at ht
        · rw [Bool.not_eq_true] at hm
          cases hl : b.get_orders_at_price (contra o.side) best with
          | none => rw [matchLoop_noLevel _ _ _ _ _ _ h0 hb hm hl] at ht; simp at ht
          | some lvl =>
            cases lvl with
            | nil =>
              rw [matchLoop_emptyLevel _ _ _ _ _ _ h0 hb hm hl] at ht; simp at ht
            | cons n tl =>
              rw [matchLoop_step _ _ _ _ _ _ _ _ h0 hb hm hl] at ht
              have hcs := head_level_eta b o.side best lvl0 rts0 _ hcs0 hl
              have hlvl := levelNodesOK_of_head o.side b best _ rts0 hWF hcs
              have hnp : n.ord.price = best :=
                (hlvl.2 n (List.mem_cons_self _ _)).2.1
              simp only [List.mem_cons] at ht
              rcases ht with ht | ht
              · subst ht
                show noWorse o.side best (generate_trade _ n.ord o _).price
                show noWorse o.side best n.ord.price
                rw [hnp]
                exact noWorse_refl _ _
              · by_cases hone : n.ord.remaining_quantity -
                    min o.remaining_quantity n.ord.remaining_quantity = 0
                · have hmin : min o.remaining_quantity n.ord.remaining_quantity =
                      n.ord.remaining_quantity := min_full _ _ hone
                  obtain ⟨hpop, hWF2, -⟩ :=
                    iterFull o.side b best lvl0.total_quantity n tl rts0 hWF hcs
                  have hbook : (if n.ord.remaining_quantity -
                      min o.remaining_quantity n.ord.remaining_quantity = 0 then
                      ((decHeadRemaining b (contra o.side) best
                        (min o.remaining_quantity n.ord.remaining_quantity)).cancel_order
                        n.ord.id).2
                     else decHeadRemaining b (contra o.side) best
                        (min o.remaining_quantity n.ord.remaining_quantity)) =
                      setSide ⟨b.bids, b.asks, alistErase b.order_index n.ord.id⟩
                        (contra o.side)
                        (if tl.isEmpty then rts0
                         else (best, ⟨tl, lvl0.total_quantity⟩) :: rts0) := by
                    rw [if_pos hone, hmin, hpop]
                  rw [hbook] at ht
                  set o1 : Order := { o with remaining_quantity :=
                    o.remaining_quantity - min o.remaining_quantity n.ord.remaining_quantity } with ho1
                  set B1 : OrderBook :=
                    setSide ⟨b.bids, b.asks, alistErase b.order_index n.ord.id⟩
                      (contra o.side)
                      (if tl.isEmpty then rts0
                       else (best, ⟨tl, lvl0.total_quantity⟩) :: rts0) with hB1
                  rcases hl'' : sideList B1 (contra o.side) with _ | ⟨⟨best1, lvl1⟩, rts1⟩
                  · have hnil : sideList B1 (contra o1.side) = [] := hl''
                    rw [loop_of_empty_contra cp fuel o1 B1 (c + 1) hnil] at ht
                    simp at ht
                  · have hcs1 : sideList B1 (contra o1.side) = (best1, lvl1) :: rts1 := hl''
                    have hlb1 := ih o1 B1 (c + 1) hWF2 best1 lvl1 rts1 hcs1 t ht
                    have hrel : noWorse o.side best best1 := by
                      rw [hB1, sideList_setSide_same] at hl''
                      by_cases htl : tl.isEmpty
                      · rw [if_pos htl] at hl''
                        exact head_rel_of_sorted o.side b best lvl0 rts0 hWF hcs0
                          best1 lvl1 rts1 hl''
                      · rw [if_neg htl] at hl''
                        injection hl'' with h1 h2
                        injection h1 with h1
                        rw [← h1]
                        exact noWorse_refl _ _
                    exact noWorse_trans o.side best best1 t.price hrel hlb1
                · have hrem0 : ({ o with remaining_quantity :=
                      o.remaining_quantity - min o.remaining_quantity n.ord.remaining_quantity } :
                      Order).remaining_quantity = 0 := by
                    show o.remaining_quantity -
                      min o.remaining_quantity n.ord.remaining_quantity = 0
                    have := Nat.min_le_left o.remaining_quantity n.ord.remaining_quantity
                    omega
                  rw [if_neg hone, loop_of_rem_zero _ _ _ _ _ hrem0] at ht
                  simp at ht

theorem loop_price_sorted (cp : Bool) (fuel : Nat) :
    ∀ (o : Order) (b : OrderBook) (c : Nat), WF b →
    List.Sorted (noWorse o.side) ((matchLoop cp fuel o b c).2.2.1.map Trade.price) := by
  induction fuel with
  | zero => intro o b c _; simp [matchLoop]
  | succ fuel ih =>
    intro o b c hWF
    by_cases h0 : o.remaining_quantity = 0
    · rw [matchLoop_done _ _ _ _ _ h0]; simp
    · cases hb : bestContra b o.side with
      | none => rw [matchLoop_noContra _ _ _ _ _ hb]; simp
      | some best =>
        by_cases hm : (cp && !marketable o best) = true
        · rw [matchLoop_notMarketable _ _ _ _ _ _ h0 hb hm]; simp
        · rw [Bool.not_eq_true] at hm
          cases hl : b.get_orders_at_price (contra o.side) best with
          | none => rw [matchLoop_noLevel _ _ _ _ _ _ h0 hb hm hl]; simp
          | some lvl =>
            cases lvl with
            | nil => rw [matchLoop_emptyLevel _ _ _ _ _ _ h0 hb hm hl]; simp
            | cons n tl =>
              rcases head_shape b o.side best hb with ⟨lvl0, rts0, hcs0⟩
              have hcs := head_level_eta b o.side best lvl0 rts0 _ hcs0 hl
              have hlvl := levelNodesOK_of_head o.side b best _ rts0 hWF hcs
              have hnp : n.ord.price = best :=
                (hlvl.2 n (List.mem_cons_self _ _)).2.1
              rw [matchLoop_step _ _ _ _ _ _ _ _ h0 hb hm hl]
              by_cases hone : n.ord.remaining_quantity -
                  min o.remaining_quantity n.ord.remaining_quantity = 0
              · have hmin : min o.remaining_quantity n.ord.remaining_quantity =
                    n.ord.remaining_quantity := min_full _ _ hone
                obtain ⟨hpop, hWF2, -⟩ :=
                  iterFull o.side b best lvl0.total_quantity n tl rts0 hWF hcs
                have hbook : (if n.ord.remaining_quantity -
                    min o.remaining_quantity n.ord.remaining_quantity = 0 then
                    ((decHeadRemaining b (contra o.side) best
                      (min o.remaining_quantity n.ord.remaining_quantity)).cancel_order
                      n.ord.id).2
                   else decHeadRemaining b (contra o.side) best
                      (min o.remaining_quantity n.ord.remaining_quantity)) =
                    setSide ⟨b.bids, b.asks, alistErase b.order_index n.ord.id⟩
                      (contra o.side)
                      (if tl.isEmpty then rts0
                       else (best, ⟨tl, lvl0.total_quantity⟩) :: rts0) := by
                  rw [if_pos hone, hmin, hpop]
                rw [hbook]
                set o1 : Order := { o with remaining_quantity :=
                  o.remaining_quantity - min o.remaining_quantity n.ord.remaining_quantity } with ho1
                set B1 : OrderBook :=
                  setSide ⟨b.bids, b.asks, alistErase b.order_index n.ord.id⟩
                    (contra o.side)
                    (if tl.isEmpty then rts0
                     else (best, ⟨tl, lvl0.total_quantity⟩) :: rts0) with hB1
                simp only [List.map_cons]
                rw [List.sorted_cons]
                constructor
                · intro q hq
                  rcases List.mem_map.mp hq with ⟨t, ht, hqt⟩
                  rcases hl'' : sideList B1 (contra o.side) with _ | ⟨⟨best1, lvl1⟩, rts1⟩
                  · have hnil : sideList B1 (contra o1.side) = [] := hl''
                    rw [loop_of_empty_contra cp fuel o1 B1 (c + 1) hnil] at ht
                    simp at ht
                  · have hcs1 : sideList B1 (contra o1.side) = (best1, lvl1) :: rts1 := hl''
                    have hlb1 := loop_price_lb cp fuel o1 B1 (c + 1) hWF2
                      best1 lvl1 rts1 hcs1 t ht
                    have hrel : noWorse o.side best best1 := by
                      rw [hB1, sideList_setSide_same] at hl''
                      by_cases htl : tl.isEmpty
                      · rw [if_pos htl] at hl''
                        exact head_rel_of_sorted o.side b best lvl0 rts0 hWF hcs0
                          best1 lvl1 rts1 hl''
                      · rw [if_neg htl] at hl''
                        injection hl'' with h1 h2
                        injection h1 with h1
                        rw [← h1]
                        exact noWorse_refl _ _
                    show noWorse o.side (generate_trade _ n.ord o _).price q
                    show noWorse o.side n.ord.price q
                    rw [hnp, ← hqt]
                    exact noWorse_trans o.side best best1 t.price hrel hlb1
                · exact ih o1 B1 (c + 1) hWF2
              · have hrem0 : ({ o with remaining_quantity :=
                    o.remaining_quantity - min o.remaining_quantity n.ord.remaining_quantity } :
                    Order).remaining_quantity = 0 := by
                  show o.remaining_quantity -
                    min o.remaining_quantity n.ord.remaining_quantity = 0
                  have := Nat.min_le_left o.remaining_quantity n.ord.remaining_quantity
                  omega
                rw [if_neg hone, loop_of_rem_zero _ _ _ _ _ hrem0]
                simp

theorem levelLookup_not_mem (s : List (Nat × LimitLevel)) (p : Nat)
    (h : ∀ pl ∈ s, pl.1 ≠ p) : levelLookup s p = none := by
  unfold levelLookup
  rw [List.find?_eq_none.mpr (fun pl hpl => by simpa using h pl hpl)]

theorem loop_fifo (cp : Bool) (fuel : Nat) :
    ∀ (o : Order) (b : OrderBook) (c : Nat), WF b → ∀ p : Nat,
    ∃ k, (((matchLoop cp fuel o b c).2.2.1.filter
        (fun t => t.price == p)).map Trade.maker_order_id) =
      (((b.get_orders_at_price (contra o.side) p).getD []).take k).map
        (fun nd => nd.ord.id) := by
  induction fuel with
  | zero => intro o b c _ p; exact ⟨0, by simp [matchLoop]⟩
  | succ fuel ih =>
    intro o b c hWF p
    by_cases h0 : o.remaining_quantity = 0
    · rw [matchLoop_done _ _ _ _ _ h0]; exact ⟨0, by simp⟩
    · cases hb : bestContra b o.side with
      | none => rw [matchLoop_noContra _ _ _ _ _ hb]; exact ⟨0, by simp⟩
      | some best =>
        by_cases hm : (cp && !marketable o best) = true
        · rw [matchLoop_notMarketable _ _ _ _ _ _ h0 hb hm]; exact ⟨0, by simp⟩
        · rw [Bool.not_eq_true] at hm
          cases hl : b.get_orders_at_price (contra o.side) best with
          | none => rw [matchLoop_noLevel _ _ _ _ _ _ h0 hb hm hl]; exact ⟨0, by simp⟩
          | some lvl =>
            cases lvl with
            | nil =>
              rw [matchLoop_emptyLevel _ _ _ _ _ _ h0 hb hm hl]; exact ⟨0, by simp⟩
            | cons n tl =>
              rcases head_shape b o.side best hb with ⟨lvl0, rts0, hcs0⟩
              have hcs := head_level_eta b o.side best lvl0 rts0 _ hcs0 hl
              have hlvl := levelNodesOK_of_head o.side b best _ rts0 hWF hcs
              have hnp : n.ord.price = best :=
                (hlvl.2 n (List.mem_cons_self _ _)).2.1
              have hnotin := hnotin_of_WF o.side b best _ rts0 hWF hcs0
              rw [matchLoop_step _ _ _ _ _ _ _ _ h0 hb hm hl]
              by_cases hone : n.ord.remaining_quantity -
                  min o.remaining_quantity n.ord.remaining_quantity = 0
              · -- head fully consumed and removed
                have hmin : min o.remaining_quantity n.ord.remaining_quantity =
                    n.ord.remaining_quantity := min_full _ _ hone
                obtain ⟨hpop, hWF2, -⟩ :=
                  iterFull o.side b best lvl0.total_quantity n tl rts0 hWF hcs
                have hbook : (if n.ord.remaining_quantity -
                    min o.remaining_quantity n.ord.remaining_quantity = 0 then
                    ((decHeadRemaining b (contra o.side) best
                      (min o.remaining_quantity n.ord.remaining_quantity)).cancel_order
                      n.ord.id).2
                   else decHeadRemaining b (contra o.side) best
                      (min o.remaining_quantity n.ord.remaining_quantity)) =
                    setSide ⟨b.bids, b.asks, alistErase b.order_index n.ord.id⟩
                      (contra o.side)
                      (if tl.isEmpty then rts0
                       else (best, ⟨tl, lvl0.total_quantity⟩) :: rts0) := by
                  rw [if_pos hone, hmin, hpop]
                rw [hbook]
                set o1 : Order := { o with remaining_quantity :=
                  o.remaining_quantity - min o.remaining_quantity n.ord.remaining_quantity } with ho1
                set B1 : OrderBook :=
                  setSide ⟨b.bids, b.asks, alistErase b.order_index n.ord.id⟩
                    (contra o.side)
                    (if tl.isEmpty then rts0
                     else (best, ⟨tl, lvl0.total_quantity⟩) :: rts0) with hB1
                have hB1cs : sideList B1 (contra o.side) =
                    (if tl.isEmpty then rts0
                     else (best, ⟨tl, lvl0.total_quantity⟩) :: rts0) := by
                  rw [hB1, sideList_setSide_same]
                obtain ⟨k1, hk1⟩ := ih o1 B1 (c + 1) hWF2 p
                by_cases hp : p = best
                · subst hp
                  have hfilter : ((generate_trade (c + 1) n.ord o
                      (min o.remaining_quantity n.ord.remaining_quantity)) :: 
                      (matchLoop cp fuel o1 B1 (c + 1)).2.2.1).filter
                      (fun t => t.price == p) =
                      (generate_trade (c + 1) n.ord o
                        (min o.remaining_quantity n.ord.remaining_quantity)) ::
                      ((matchLoop cp fuel o1 B1 (c + 1)).2.2.1).filter
                        (fun t => t.price == p) := by
                    rw [List.filter_cons_of_pos]
                    show (n.ord.price == p) = true
                    simp [hnp]
                  have hlvlb : (b.get_orders_at_price (contra o.side) p).getD [] =
                      n :: tl := by rw [hl]; rfl
                  by_cases htl : tl.isEmpty
                  · have htlnil : tl = [] := by simpa [List.isEmpty_iff] using htl
                    have hlook1 : (B1.get_orders_at_price (contra o1.side) p).getD [] = [] := by
                      rw [get_orders_at_price_eq]
                      have : sideList B1 (contra o1.side) = rts0 := by
                        rw [show contra o1.side = contra o.side from rfl, hB1cs, if_pos htl]
                      rw [this, levelLookup_not_mem rts0 p hnotin]
                      rfl
                    rw [hlook1] at hk1
                    refine ⟨1, ?_⟩
                    rw [hfilter, List.map_cons, hk1, hlvlb, htlnil]
                    simp [generate_trade]
                  · have hlook1 : (B1.get_orders_at_price (contra o1.side) p).getD [] = tl := by
                      rw [get_orders_at_price_eq]
                      have : sideList B1 (contra o1.side) =
                          (p, ⟨tl, lvl0.total_quantity⟩) :: rts0 := by
                        rw [show contra o1.side = contra o.side from rfl, hB1cs, if_neg htl]
                      rw [this, levelLookup_cons_self]
                      rfl
                    rw [hlook1] at hk1
                    refine ⟨k1 + 1, ?_⟩
                    rw [hfilter, List.map_cons, hk1, hlvlb]
                    simp [generate_trade]
                · have hfilter : ((generate_trade (c + 1) n.ord o
                      (min o.remaining_quantity n.ord.remaining_quantity)) ::
                      (matchLoop cp fuel o1 B1 (c + 1)).2.2.1).filter
                      (fun t => t.price == p) =
                      ((matchLoop cp fuel o1 B1 (c + 1)).2.2.1).filter
                        (fun t => t.price == p) := by
                    rw [List.filter_cons_of_neg]
                    show ¬(n.ord.price == p) = true
                    simp [hnp]
                    exact fun h => hp h.symm
                  have hlook1 : (B1.get_orders_at_price (contra o1.side) p).getD [] =
                      (b.get_orders_at_price (contra o.side) p).getD [] := by
                    rw [get_orders_at_price_eq, get_orders_at_price_eq]
                    have h1 : sideList B1 (contra o1.side) =
                        (if tl.isEmpty then rts0
                         else (best, ⟨tl, lvl0.total_quantity⟩) :: rts0) := hB1cs
                    rw [h1, hcs0, levelLookup_cons_ne _ _ _ _ hp]
                    by_cases htl : tl.isEmpty
                    · rw [if_pos htl]
                    · rw [if_neg htl, levelLookup_cons_ne _ _ _ _ hp]
                  rw [hlook1] at hk1
                  exact ⟨k1, by rw [hfilter, hk1]⟩
              · -- taker exhausted: single trade from this level
                have hrem0 : ({ o with remaining_quantity :=
                    o.remaining_quantity - min o.remaining_quantity n.ord.remaining_quantity } :
                    Order).remaining_quantity = 0 := by
                  show o.remaining_quantity -
                    min o.remaining_quantity n.ord.remaining_quantity = 0
                  have := Nat.min_le_left o.remaining_quantity n.ord.remaining_quantity
                  omega
                rw [if_neg hone, loop_of_rem_zero _ _ _ _ _ hrem0]
                by_cases hp : p = best
                · subst hp
                  refine ⟨1, ?_⟩
                  rw [show ((b.get_orders_at_price (contra o.side) p).getD []) =
                    n :: tl by rw [hl]; rfl]
                  have hfil : ([generate_trade (c + 1) n.ord o
                      (min o.remaining_quantity n.ord.remaining_quantity)]).filter
                      (fun t => t.price == p) =
                      [generate_trade (c + 1) n.ord o
                        (min o.remaining_quantity n.ord.remaining_quantity)] := by
                    simp [List.filter_cons, generate_trade, hnp]
                  rw [hfil]
                  simp [generate_trade]
                · refine ⟨0, ?_⟩
                  have hbest : (best == p) = false := by
                    simp
                    exact fun h => hp h.symm
                  have hfil : ([generate_trade (c + 1) n.ord o
                      (min o.remaining_quantity n.ord.remaining_quantity)]).filter
                      (fun t => t.price == p) = [] := by
                    simp [List.filter_cons, generate_trade, hnp, hbest]
                  rw [hfil]
                  simp

/-- C6: within one process_order call, trade prices are monotonically
non-improving from the taker's perspective (non-decreasing for a BUY
sweeping asks, non-increasing for a SELL sweeping bids, via `noWorse`),
and at any price level the makers consumed are exactly a FIFO prefix of
that level's resting queue, in arrival order. -/
theorem C6_price_priority_and_fifo (e : MatchingEngine) (o : Order)
    (hWF : WF (e.getBook o.symbol)) :
    List.Sorted (noWorse o.side) ((emitted e o).map Trade.price) ∧
    ∀ p : Nat, ∃ k,
      (((emitted e o).filter (fun t => t.price == p)).map Trade.maker_order_id) =
        ((((e.getBook o.symbol).get_orders_at_price (contra o.side) p).getD []).take k).map
          (fun nd => nd.ord.id) := by
  unfold emitted process_order
  cases hty : o.type
  case MARKET =>
    unfold match_market_order
    simp only [List.drop_left]
    exact ⟨loop_price_sorted _ _ _ _ _ hWF, loop_fifo _ _ _ _ _ hWF⟩
  case LIMIT =>
    unfold match_limit_order
    simp only [List.drop_left]
    exact ⟨loop_price_sorted _ _ _ _ _ hWF, loop_fifo _ _ _ _ _ hWF⟩
  case IOC =>
    unfold match_ioc_order
    simp only [List.drop_left]
    exact ⟨loop_price_sorted _ _ _ _ _ hWF, loop_fifo _ _ _ _ _ hWF⟩
  case FOK =>
    unfold match_fok_order
    by_cases hcf : can_fill_completely o (e.getBook o.symbol)
    · simp only [hcf, if_true, List.drop_left]
      exact ⟨loop_price_sorted _ _ _ _ _ hWF, loop_fifo _ _ _ _ _ hWF⟩
    · simp only [hcf, if_false, List.drop_left]
      exact ⟨by simp, fun p => ⟨0, by simp⟩⟩

theorem C6_price_priority_and_fifo_witness :
    WF ((runEngine [⟨"a1", "B", Side.SELL, OrderType.LIMIT, 60000, 5, 5, 1⟩,
        ⟨"a2", "B", Side.SELL, OrderType.LIMIT, 60000, 7, 7, 2⟩,
        ⟨"a3", "B", Side.SELL, OrderType.LIMIT, 60001, 9, 9, 3⟩]).getBook "B") ∧
    List.Sorted (noWorse Side.BUY)
      ((emitted (runEngine [⟨"a1", "B", Side.SELL, OrderType.LIMIT, 60000, 5, 5, 1⟩,
          ⟨"a2", "B", Side.SELL, OrderType.LIMIT, 60000, 7, 7, 2⟩,
          ⟨"a3", "B", Side.SELL, OrderType.LIMIT, 60001, 9, 9, 3⟩])
        (⟨"M", "B", Side.BUY, OrderType.MARKET, 0, 14, 14, 4⟩ : Order)).map
        Trade.price) ∧
    ∃ k, (((emitted (runEngine [⟨"a1", "B", Side.SELL, OrderType.LIMIT, 60000, 5, 5, 1⟩,
          ⟨"a2", "B", Side.SELL, OrderType.LIMIT, 60000, 7, 7, 2⟩,
          ⟨"a3", "B", Side.SELL, OrderType.LIMIT, 60001, 9, 9, 3⟩])
        (⟨"M", "B", Side.BUY, OrderType.MARKET, 0, 14, 14, 4⟩ : Order)).filter
        (fun t => t.price == 60000)).map Trade.maker_order_id) =
      (((((runEngine [⟨"a1", "B", Side.SELL, OrderType.LIMIT, 60000, 5, 5, 1⟩,
          ⟨"a2", "B", Side.SELL, OrderType.LIMIT, 60000, 7, 7, 2⟩,
          ⟨"a3", "B", Side.SELL, OrderType.LIMIT, 60001, 9, 9, 3⟩]).getBook
          "B").get_orders_at_price (contra Side.BUY) 60000).getD []).take k).map
        (fun nd => nd.ord.id) :=
  ⟨by decide,
    (C6_price_priority_and_fifo _ (⟨"M", "B", Side.BUY, OrderType.MARKET, 0, 14, 14, 4⟩ : Order)
      (by decide)).1,
    (C6_price_priority_and_fifo _ (⟨"M", "B", Side.BUY, OrderType.MARKET, 0, 14, 14, 4⟩ : Order)
      (by decide)).2 60000⟩

/-! ### C4: the loop exits normally from well-formed books -/

theorem loop_normal_exit (cp : Bool) (fuel : Nat) :
    ∀ (o : Order) (b : OrderBook) (c : Nat), WF b →
    b.nodes.length + 1 ≤ fuel →
    (matchLoop cp fuel o b c).1.remaining_quantity = 0 ∨
    sideList (matchLoop cp fuel o b c).2.1 (contra o.side) = [] ∨
    (∃ best lvl rts, sideList (matchLoop cp fuel o b c).2.1 (contra o.side) =
        (best, lvl) :: rts ∧ cp = true ∧
      marketable (matchLoop cp fuel o b c).1 best = false) := by
  induction fuel with
  | zero => intro o b c _ hfuel; exact absurd hfuel (by omega)
  | succ fuel ih =>
    intro o b c hWF hfuel
    by_cases h0 : o.remaining_quantity = 0
    · rw [matchLoop_done _ _ _ _ _ h0]
      exact Or.inl h0
    · cases hb : bestContra b o.side with
      | none =>
        rw [matchLoop_noContra _ _ _ _ _ hb]
        refine Or.inr (Or.inl ?_)
        rw [bestContra_eq] at hb
        rcases Option.map_eq_none'.mp hb with h
        exact List.head?_eq_none_iff.mp h
      | some best =>
        by_cases hm : (cp && !marketable o best) = true
        · rw [matchLoop_notMarketable _ _ _ _ _ _ h0 hb hm]
          rcases head_shape b o.side best hb with ⟨lvl0, rts0, hcs0⟩
          rcases (Bool.and_eq_true _ _).mp hm with ⟨hcp, hnm⟩
          refine Or.inr (Or.inr ⟨best, lvl0, rts0, hcs0, hcp, ?_⟩)
          simpa using hnm
        · rw [Bool.not_eq_true] at hm
          rcases head_shape b o.side best hb with ⟨lvl0, rts0, hcs0⟩
          cases hl : b.get_orders_at_price (contra o.side) best with
          | none =>
            rw [get_orders_head b o.side best lvl0 rts0 hcs0] at hl
            cases hl
          | some lvl =>
            cases lvl with
            | nil =>
              exfalso
              have := (levelNodesOK_of_head o.side b best lvl0 rts0 hWF hcs0).1
              rw [get_orders_head b o.side best lvl0 rts0 hcs0] at hl
              injection hl with hl
              exact this hl
            | cons n tl =>
              rw [matchLoop_step _ _ _ _ _ _ _ _ h0 hb hm hl]
              have hcs := head_level_eta b o.side best lvl0 rts0 _ hcs0 hl
              by_cases hone : n.ord.remaining_quantity -
                  min o.remaining_quantity n.ord.remaining_quantity = 0
              · have hmin : min o.remaining_quantity n.ord.remaining_quantity =
                    n.ord.remaining_quantity := min_full _ _ hone
                obtain ⟨hpop, hWF2, hcount⟩ :=
                  iterFull o.side b best lvl0.total_quantity n tl rts0 hWF hcs
                have hbook : (if n.ord.remaining_quantity -
                    min o.remaining_quantity n.ord.remaining_quantity = 0 then
                    ((decHeadRemaining b (contra o.side) best
                      (min o.remaining_quantity n.ord.remaining_quantity)).cancel_order
                      n.ord.id).2
                   else decHeadRemaining b (contra o.side) best
                      (min o.remaining_quantity n.ord.remaining_quantity)) =
                    setSide ⟨b.bids, b.asks, alistErase b.order_index n.ord.id⟩
                      (contra o.side)
                      (if tl.isEmpty then rts0
                       else (best, ⟨tl, lvl0.total_quantity⟩) :: rts0) := by
                  rw [if_pos hone, hmin, hpop]
                rw [hbook]
                set o1 : Order := { o with remaining_quantity :=
                  o.remaining_quantity - min o.remaining_quantity n.ord.remaining_quantity } with ho1
                set B1 : OrderBook :=
                  setSide ⟨b.bids, b.asks, alistErase b.order_index n.ord.id⟩
                    (contra o.side)
                    (if tl.isEmpty then rts0
                     else (best, ⟨tl, lvl0.total_quantity⟩) :: rts0) with hB1
                have hfuel1 : B1.nodes.length + 1 ≤ fuel := by omega
                exact ih o1 B1 (c + 1) hWF2 hfuel1
              · have hrem0 : ({ o with remaining_quantity :=
                    o.remaining_quantity - min o.remaining_quantity n.ord.remaining_quantity } :
                    Order).remaining_quantity = 0 := by
                  show o.remaining_quantity -
                    min o.remaining_quantity n.ord.remaining_quantity = 0
                  have := Nat.min_le_left o.remaining_quantity n.ord.remaining_quantity
                  omega
                rw [if_neg hone, loop_of_rem_zero _ _ _ _ _ hrem0]
                exact Or.inl hrem0

/-! ### add_order preserves well-formedness -/

theorem upsert_keys_subset (before : Nat → Nat → Bool) (price : Nat) (n : Node)
    (q : Nat) : ∀ s : List (Nat × LimitLevel),
    ∀ y ∈ (upsertLevel before price n q s).map Prod.fst,
      y = price ∨ y ∈ s.map Prod.fst := by
  intro s
  induction s with
  | nil => intro y hy; simpa [upsertLevel] using hy
  | cons pl rest ih =>
    rcases pl with ⟨p, l⟩
    intro y hy
    by_cases hp : p = price
    · rw [upsertLevel, if_pos (by simpa using hp)] at hy
      simp only [List.map_cons] at hy ⊢
      rcases List.mem_cons.mp hy with hy | hy
      · right; simp [hy]
      · right; exact List.mem_cons_of_mem _ hy
    · by_cases hb : before price p
      · rw [upsertLevel, if_neg (by simpa using hp), if_pos hb] at hy
        simp only [List.map_cons] at hy ⊢
        rcases List.mem_cons.mp hy with hy | hy
        · exact Or.inl hy
        · exact Or.inr hy
      · rw [upsertLevel, if_neg (by simpa using hp), if_neg hb] at hy
        simp only [List.map_cons] at hy ⊢
        rcases List.mem_cons.mp hy with hy | hy
        · right; simp [hy]
        · rcases ih y hy with hy | hy
          · exact Or.inl hy
          · exact Or.inr (List.mem_cons_of_mem _ hy)

theorem upsert_sorted (rel : Nat → Nat → Prop) (before : Nat → Nat → Bool)
    (hb : ∀ a c, before a c = true ↔ rel a c)
    (htri : ∀ a c, a ≠ c → ¬rel a c → rel c a)
    (htrans : ∀ a d c, rel a d → rel d c → rel a c)
    (price : Nat) (n : Node) (q : Nat) :
    ∀ s : List (Nat × LimitLevel), List.Sorted rel (s.map Prod.fst) →
    List.Sorted rel ((upsertLevel before price n q s).map Prod.fst) := by
  intro s
  induction s with
  | nil => intro _; simp [upsertLevel]
  | cons pl rest ih =>
    rcases pl with ⟨p, l⟩
    intro hs
    simp only [List.map_cons] at hs
    rcases List.sorted_cons.mp hs with ⟨hhead, hrest⟩
    by_cases hp : p = price
    · rw [upsertLevel, if_pos (by simpa using hp)]
      simp only [List.map_cons]
      exact List.sorted_cons.mpr ⟨hhead, hrest⟩
    · by_cases hbr : before price p
      · rw [upsertLevel, if_neg (by simpa using hp), if_pos hbr]
        simp only [List.map_cons]
        refine List.sorted_cons.mpr ⟨?_, List.sorted_cons.mpr ⟨hhead, hrest⟩⟩
        intro y hy
        rcases List.mem_cons.mp hy with hy | hy
        · rw [hy]; exact (hb price p).mp hbr
        · exact htrans price p y ((hb price p).mp hbr) (hhead y hy)
      · rw [upsertLevel, if_neg (by simpa using hp), if_neg hbr]
        simp only [List.map_cons]
        refine List.sorted_cons.mpr ⟨?_, ih hrest⟩
        intro y hy
        rcases upsert_keys_subset before price n q rest y hy with hy | hy
        · rw [hy]
          exact htri price p (fun h => hp h.symm)
            (fun hrel => by rw [← hb price p] at hrel; exact absurd hrel (by simpa using hbr))
        · exact hhead y hy

theorem alistInsert_keys_of_mem (l : List (String × Nat)) (k : String)
    (v v' : Nat) (h : alistLookup l k = some v') :
    (alistInsert l k v).map Prod.fst = l.map Prod.fst := by
  induction l with
  | nil => simp [alistLookup] at h
  | cons e rest ih =>
    by_cases he : e.1 = k
    · simp [alistInsert, he]
    · simp only [alistInsert, beq_iff_eq, he, if_false, List.map_cons]
      unfold alistLookup at h ih
      rw [List.find?_cons_of_neg _ (by simpa using he)] at h
      rw [ih h]

theorem upsert_levelNodesOK (side : Side) (before : Nat → Nat → Bool)
    (o : Order) (tg : Nat)
    (hos : o.side = side) (hoq : 0 < o.remaining_quantity) :
    ∀ s : List (Nat × LimitLevel),
    (∀ pl ∈ s, levelNodesOK side pl.1 pl.2) →
    ∀ pl ∈ upsertLevel before o.price ⟨tg, o⟩ o.remaining_quantity s,
      levelNodesOK side pl.1 pl.2 := by
  intro s
  induction s with
  | nil =>
    intro _ pl hpl
    simp only [upsertLevel, List.mem_singleton] at hpl
    subst hpl
    exact ⟨by simp, fun nd hnd => by
      simp only [List.mem_singleton] at hnd
      subst hnd
      exact ⟨hos, rfl, hoq⟩⟩
  | cons ql rest ih =>
    rcases ql with ⟨p, l⟩
    intro hs pl hpl
    by_cases hp : p = o.price
    · rw [upsertLevel, if_pos (by simpa using hp)] at hpl
      rcases List.mem_cons.mp hpl with hpl | hpl
      · subst hpl
        have horig := hs (p, l) (List.mem_cons_self _ _)
        refine ⟨by simp, fun nd hnd => ?_⟩
        rcases List.mem_append.mp hnd with hnd | hnd
        · exact horig.2 nd hnd
        · simp only [List.mem_singleton] at hnd
          subst hnd
          exact ⟨hos, hp.symm, hoq⟩
      · exact hs pl (List.mem_cons_of_mem _ hpl)
    · by_cases hbr : before o.price p
      · rw [upsertLevel, if_neg (by simpa using hp), if_pos hbr] at hpl
        rcases List.mem_cons.mp hpl with hpl | hpl
        · subst hpl
          exact ⟨by simp, fun nd hnd => by
            simp only [List.mem_singleton] at hnd
            subst hnd
            exact ⟨hos, rfl, hoq⟩⟩
        · exact hs pl hpl
      · rw [upsertLevel, if_neg (by simpa using hp), if_neg hbr] at hpl
        rcases List.mem_cons.mp hpl with hpl | hpl
        · subst hpl
          exact hs (p, l) (List.mem_cons_self _ _)
        · exact ih (fun ql hql => hs ql (List.mem_cons_of_mem _ hql)) pl hpl

theorem WF_add (b : OrderBook) (o : Order) (hWF : WF b)
    (hrem : 0 < o.remaining_quantity)
    (hid : ∀ nd ∈ b.nodes, nd.ord.id ≠ o.id) :
    WF (b.add_order o) := by
  obtain ⟨hsb, hsa, hlb, hla, htag, hids, hlook, hkeys⟩ := hWF
  have hperm := add_order_nodes_perm b o
  have hnio : nodesIndexOK (b.add_order o).nodes (b.add_order o).order_index := by
    rw [add_order_index]
    refine ⟨?_, ?_, ?_, ?_⟩
    · rw [(hperm.map Node.tag).nodup_iff]
      refine List.nodup_cons.mpr ⟨?_, htag⟩
      intro hmem
      rcases List.mem_map.mp hmem with ⟨m, hm, hmt⟩
      exact absurd hmt (Nat.ne_of_lt (freshTag_gt b m hm))
    · rw [(hperm.map (fun m => m.ord.id)).nodup_iff]
      refine List.nodup_cons.mpr ⟨?_, hids⟩
      intro hmem
      rcases List.mem_map.mp hmem with ⟨m, hm, hmi⟩
      exact absurd hmi (hid m hm)
    · intro m hm
      rcases List.mem_cons.mp (hperm.mem_iff.mp hm) with hm | hm
      · subst hm
        exact alistLookup_insert_self _ _ _
      · rw [alistLookup_insert_ne _ _ _ _ (hid m hm)]
        exact hlook m hm
    · cases hv : alistLookup b.order_index o.id with
      | none =>
        rw [alistInsert_keys _ _ _ hv]
        have hnotin : o.id ∉ b.order_index.map Prod.fst := by
          intro hmem
          rcases List.mem_map.mp hmem with ⟨en, hen, hek⟩
          exact (alistLookup_none_iff _ _).mp hv en hen hek
        simp only [List.nodup_append]
        exact ⟨hkeys, List.nodup_singleton _, by
          intro x hx hy
          simp only [List.mem_singleton] at hy
          subst hy
          exact hnotin hx⟩
      | some v' =>
        rw [alistInsert_keys_of_mem _ _ _ _ hv]
        exact hkeys
  by_cases hside : o.side = Side.BUY
  · show WF _
    unfold OrderBook.add_order
    rw [if_pos hside]
    refine ⟨?_, hsa, ?_, hla, ?_⟩
    · exact upsert_sorted (· > ·) (fun a c => c < a)
        (fun a c => by simp) (fun a c h1 h2 => by omega)
        (fun a d c h1 h2 => by omega) o.price ⟨b.freshTag, o⟩
        o.remaining_quantity b.bids hsb
    · exact upsert_levelNodesOK Side.BUY _ o b.freshTag hside hrem b.bids hlb
    · have hrw : b.add_order o = { b with
          bids := upsertLevel (fun a c => c < a) o.price ⟨b.freshTag, o⟩
            o.remaining_quantity b.bids,
          order_index := alistInsert b.order_index o.id b.freshTag } := by
        unfold OrderBook.add_order
        rw [if_pos hside]
      rw [← hrw]
      exact hnio
  · have hsell : o.side = Side.SELL := by cases ho : o.side <;> simp_all
    show WF _
    unfold OrderBook.add_order
    rw [if_neg hside]
    refine ⟨hsb, ?_, hlb, ?_, ?_⟩
    · exact upsert_sorted (· < ·) (fun a c => a < c)
        (fun a c => by simp) (fun a c h1 h2 => by omega)
        (fun a d c h1 h2 => by omega) o.price ⟨b.freshTag, o⟩
        o.remaining_quantity b.asks hsa
    · exact upsert_levelNodesOK Side.SELL _ o b.freshTag hsell hrem b.asks hla
    · have hrw : b.add_order o = { b with
          asks := upsertLevel (fun a c => a < c) o.price ⟨b.freshTag, o⟩
            o.remaining_quantity b.asks,
          order_index := alistInsert b.order_index o.id b.freshTag } := by
        unfold OrderBook.add_order
        rw [if_neg hside]
      rw [← hrw]
      exact hnio

/-! ### No-crossed-book preservation -/

theorem get_best_bid_eq_head (b : OrderBook) :
    b.get_best_bid = (b.bids.map Prod.fst).head? := by
  unfold OrderBook.get_best_bid
  cases b.bids with
  | nil => rfl
  | cons pl rest => cases pl; rfl

theorem get_best_ask_eq_head (b : OrderBook) :
    b.get_best_ask = (b.asks.map Prod.fst).head? := by
  unfold OrderBook.get_best_ask
  cases b.asks with
  | nil => rfl
  | cons pl rest => cases pl; rfl

theorem sorted_head_le (l : List Nat) (x h0 : Nat)
    (h : List.Sorted (· < ·) l) (hm : x ∈ l) (hh : l.head? = some h0) :
    h0 ≤ x := by
  cases l with
  | nil => cases hm
  | cons a rest =>
    injection hh with hh
    subst hh
    rcases List.mem_cons.mp hm with hm | hm
    · omega
    · have := (List.sorted_cons.mp h).1 x hm
      omega

theorem sorted_head_ge (l : List Nat) (x h0 : Nat)
    (h : List.Sorted (· > ·) l) (hm : x ∈ l) (hh : l.head? = some h0) :
    x ≤ h0 := by
  cases l with
  | nil => cases hm
  | cons a rest =>
    injection hh with hh
    subst hh
    rcases List.mem_cons.mp hm with hm | hm
    · omega
    · have := (List.sorted_cons.mp h).1 x hm
      omega

theorem noCross_shrink (b b' : OrderBook) (ts : Side) (hWF : WF b)
    (hts : sideList b' ts = sideList b ts)
    (hcs : ((sideList b' (contra ts)).map Prod.fst).Sublist
      ((sideList b (contra ts)).map Prod.fst))
    (hnc : noCross b = true) : noCross b' = true := by
  obtain ⟨hsb, hsa, -⟩ := hWF
  unfold noCross
  cases hbb : b'.get_best_bid with
  | none => rfl
  | some bb =>
    cases hba : b'.get_best_ask with
    | none => rfl
    | some ba =>
      simp only [decide_eq_true_eq]
      cases ts
      · -- taker BUY: bids preserved, asks shrank
        have hbids : b'.bids = b.bids := hts
        have hbamem : ba ∈ b.asks.map Prod.fst := by
          have h1 : ba ∈ (b'.asks.map Prod.fst) := by
            rw [get_best_ask_eq_head] at hba
            exact List.mem_of_mem_head? hba
          exact hcs.mem h1
        have hasksne : b.asks ≠ [] := by
          intro hnil
          rw [hnil] at hbamem
          simp at hbamem
        cases hasks : b.asks with
        | nil => exact absurd hasks hasksne
        | cons al arest =>
          have hba0 : b.get_best_ask = some al.1 := by
            rw [get_best_ask_eq_head, hasks]
            simp
          have hle : al.1 ≤ ba := by
            apply sorted_head_le (b.asks.map Prod.fst) ba al.1 hsa hbamem
            rw [hasks]; simp
          have hbb0 : b.get_best_bid = some bb := by
            rw [get_best_bid_eq_head, ← hbids, ← get_best_bid_eq_head]
            exact hbb
          unfold noCross at hnc
          rw [hbb0, hba0] at hnc
          simp only [decide_eq_true_eq] at hnc
          omega
      · -- taker SELL: asks preserved, bids shrank
        have hasks : b'.asks = b.asks := hts
        have hbbmem : bb ∈ b.bids.map Prod.fst := by
          have h1 : bb ∈ (b'.bids.map Prod.fst) := by
            rw [get_best_bid_eq_head] at hbb
            exact List.mem_of_mem_head? hbb
          exact hcs.mem h1
        have hbidsne : b.bids ≠ [] := by
          intro hnil
          rw [hnil] at hbbmem
          simp at hbbmem
        cases hbids : b.bids with
        | nil => exact absurd hbids hbidsne
        | cons bl brest =>
          have hbb0 : b.get_best_bid = some bl.1 := by
            rw [get_best_bid_eq_head, hbids]
            simp
          have hge : bb ≤ bl.1 := by
            apply sorted_head_ge (b.bids.map Prod.fst) bb bl.1 hsb hbbmem
            rw [hbids]; simp
          have hba0 : b.get_best_ask = some ba := by
            rw [get_best_ask_eq_head, ← hasks, ← get_best_ask_eq_head]
            exact hba
          unfold noCross at hnc
          rw [hbb0, hba0] at hnc
          simp only [decide_eq_true_eq] at hnc
          omega

theorem upsert_head_cases (before : Nat → Nat → Bool) (price : Nat) (n : Node)
    (q : Nat) (s : List (Nat × LimitLevel)) :
    ((upsertLevel before price n q s).map Prod.fst).head? = some price ∨
    ((upsertLevel before price n q s).map Prod.fst).head? =
      (s.map Prod.fst).head? := by
  cases s with
  | nil => left; simp [upsertLevel]
  | cons pl rest =>
    rcases pl with ⟨p, l⟩
    by_cases hp : p = price
    · left
      rw [upsertLevel, if_pos (by simpa using hp)]
      simp [hp]
    · by_cases hb : before price p
      · left
        rw [upsertLevel, if_neg (by simpa using hp), if_pos hb]
        simp
      · right
        rw [upsertLevel, if_neg (by simpa using hp), if_neg hb]
        simp

theorem noCross_add_rest (b1 : OrderBook) (o : Order) (hnc1 : noCross b1 = true)
    (hexit : sideList b1 (contra o.side) = [] ∨
      (∃ best lvl rts, sideList b1 (contra o.side) = (best, lvl) :: rts ∧
        marketable o best = false)) :
    noCross (b1.add_order o) = true := by
  by_cases hside : o.side = Side.BUY
  · have hrw : b1.add_order o = { b1 with
        bids := upsertLevel (fun a c => c < a) o.price ⟨b1.freshTag, o⟩
          o.remaining_quantity b1.bids,
        order_index := alistInsert b1.order_index o.id b1.freshTag } := by
      unfold OrderBook.add_order
      rw [if_pos hside]
    rw [hrw]
    unfold noCross
    cases hbb : OrderBook.get_best_bid { b1 with
        bids := upsertLevel (fun a c => c < a) o.price ⟨b1.freshTag, o⟩
          o.remaining_quantity b1.bids,
        order_index := alistInsert b1.order_index o.id b1.freshTag } with
    | none => rfl
    | some bb =>
      cases hba : OrderBook.get_best_ask { b1 with
          bids := upsertLevel (fun a c => c < a) o.price ⟨b1.freshTag, o⟩
            o.remaining_quantity b1.bids,
          order_index := alistInsert b1.order_index o.id b1.freshTag } with
      | none => rfl
      | some ba =>
        simp only [decide_eq_true_eq]
        have hba1 : b1.get_best_ask = some ba := by
          rw [get_best_ask_eq_head] at hba ⊢
          exact hba
        rcases hexit with hempty | ⟨best, lvl, rts, hcs, hnm⟩
        · have : b1.asks = [] := by
            rw [show sideList b1 (contra o.side) = b1.asks by rw [hside]; rfl] at hempty
            exact hempty
          rw [get_best_ask_eq_head, this] at hba1
          cases hba1
        · have hasks1 : b1.asks = (best, lvl) :: rts := by
            rw [show sideList b1 (contra o.side) = b1.asks by rw [hside]; rfl] at hcs
            exact hcs
          have hbabest : ba = best := by
            rw [get_best_ask_eq_head, hasks1] at hba1
            simp at hba1
            omega
          have hop : o.price < best := by
            unfold marketable at hnm
            rw [if_pos hside] at hnm
            simpa using hnm
          rw [get_best_bid_eq_head] at hbb
          simp only at hbb
          rcases upsert_head_cases (fun a c => c < a) o.price ⟨b1.freshTag, o⟩
            o.remaining_quantity b1.bids with hc | hc
          · rw [hbb] at hc
            injection hc with hc
            rw [hc, hbabest]
            exact hop
          · rw [hbb] at hc
            have hbb1 : b1.get_best_bid = some bb := by
              rw [get_best_bid_eq_head, ← hc]
            unfold noCross at hnc1
            rw [hbb1, hba1] at hnc1
            simpa using hnc1
  · have hsell : o.side = Side.SELL := by cases ho : o.side <;> simp_all
    have hrw : b1.add_order o = { b1 with
        asks := upsertLevel (fun a c => a < c) o.price ⟨b1.freshTag, o⟩
          o.remaining_quantity b1.asks,
        order_index := alistInsert b1.order_index o.id b1.freshTag } := by
      unfold OrderBook.add_order
      rw [if_neg hside]
    rw [hrw]
    unfold noCross
    cases hbb : OrderBook.get_best_bid { b1 with
        asks := upsertLevel (fun a c => a < c) o.price ⟨b1.freshTag, o⟩
          o.remaining_quantity b1.asks,
        order_index := alistInsert b1.order_index o.id b1.freshTag } with
    | none => rfl
    | some bb =>
      cases hba : OrderBook.get_best_ask { b1 with
          asks := upsertLevel (fun a c => a < c) o.price ⟨b1.freshTag, o⟩
            o.remaining_quantity b1.asks,
          order_index := alistInsert b1.order_index o.id b1.freshTag } with
      | none => rfl
      | some ba =>
        simp only [decide_eq_true_eq]
        have hbb1 : b1.get_best_bid = some bb := by
          rw [get_best_bid_eq_head] at hbb ⊢
          exact hbb
        rcases hexit with hempty | ⟨best, lvl, rts, hcs, hnm⟩
        · have : b1.bids = [] := by
            rw [show sideList b1 (contra o.side) = b1.bids by rw [hsell]; rfl] at hempty
            exact hempty
          rw [get_best_bid_eq_head, this] at hbb1
          cases hbb1
        · have hbids1 : b1.bids = (best, lvl) :: rts := by
            rw [show sideList b1 (contra o.side) = b1.bids by rw [hsell]; rfl] at hcs
            exact hcs
          have hbbbest : bb = best := by
            rw [get_best_bid_eq_head, hbids1] at hbb1
            simp at hbb1
            omega
          have hop : best < o.price := by
            unfold marketable at hnm
            rw [if_neg hside] at hnm
            simpa using hnm
          rw [get_best_ask_eq_head] at hba
          simp only at hba
          rcases upsert_head_cases (fun a c => a < c) o.price ⟨b1.freshTag, o⟩
            o.remaining_quantity b1.asks with hc | hc
          · rw [hba] at hc
            injection hc with hc
            rw [hc, hbbbest]
            exact hop
          · rw [hba] at hc
            have hba1 : b1.get_best_ask = some ba := by
              rw [get_best_ask_eq_head, ← hc]
            unfold noCross at hnc1
            rw [hbb1, hba1] at hnc1
            simpa using hnc1

theorem cancel_nodes_sublist (b : OrderBook) (oid : String) :
    ((b.cancel_order oid).2).nodes.Sublist b.nodes := by
  rw [nodes_eq_sideLists ((b.cancel_order oid).2), nodes_eq_sideLists b]
  exact List.Sublist.append (cancel_sideNodes_sublist b oid Side.BUY)
    (cancel_sideNodes_sublist b oid Side.SELL)

theorem loop_node_ids (cp : Bool) (fuel : Nat) :
    ∀ (o : Order) (b : OrderBook) (c : Nat),
    ∀ nd ∈ (matchLoop cp fuel o b c).2.1.nodes,
      nd.ord.id ∈ b.nodes.map (fun m => m.ord.id) := by
  induction fuel with
  | zero =>
    intro o b c nd hnd
    rw [matchLoop_zero] at hnd
    exact List.mem_map_of_mem _ hnd
  | succ fuel ih =>
    intro o b c nd hnd
    by_cases h0 : o.remaining_quantity = 0
    · rw [matchLoop_done _ _ _ _ _ h0] at hnd
      exact List.mem_map_of_mem _ hnd
    · cases hb : bestContra b o.side with
      | none =>
        rw [matchLoop_noContra _ _ _ _ _ hb] at hnd
        exact List.mem_map_of_mem _ hnd
      | some best =>
        by_cases hm : (cp && !marketable o best) = true
        · rw [matchLoop_notMarketable _ _ _ _ _ _ h0 hb hm] at hnd
          exact List.mem_map_of_mem _ hnd
        · rw [Bool.not_eq_true] at hm
          cases hl : b.get_orders_at_price (contra o.side) best with
          | none =>
            rw [matchLoop_noLevel _ _ _ _ _ _ h0 hb hm hl] at hnd
            exact List.mem_map_of_mem _ hnd
          | some lvl =>
            cases lvl with
            | nil =>
              rw [matchLoop_emptyLevel _ _ _ _ _ _ h0 hb hm hl] at hnd
              exact List.mem_map_of_mem _ hnd
            | cons n tl =>
              rw [matchLoop_step _ _ _ _ _ _ _ _ h0 hb hm hl] at hnd
              have hstep := ih _ _ (c + 1) nd hnd
              have htrans : ∀ x, x ∈ ((if n.ord.remaining_quantity -
                  min o.remaining_quantity n.ord.remaining_quantity = 0 then
                  ((decHeadRemaining b (contra o.side) best
                    (min o.remaining_quantity n.ord.remaining_quantity)).cancel_order
                    n.ord.id).2
                 else decHeadRemaining b (contra o.side) best
                    (min o.remaining_quantity n.ord.remaining_quantity)) :
                  OrderBook).nodes.map (fun m => m.ord.id) →
                  x ∈ b.nodes.map (fun m => m.ord.id) := by
                intro x hx
                by_cases hone : n.ord.remaining_quantity -
                    min o.remaining_quantity n.ord.remaining_quantity = 0
                · rw [if_pos hone] at hx
                  rcases List.mem_map.mp hx with ⟨m, hm, hmx⟩
                  have hm2 := (cancel_nodes_sublist _ _).mem hm
                  have := List.mem_map_of_mem (fun m => m.ord.id) hm2
                  rw [decHead_nodes_map _ _ _ _ (fun m => m.ord.id)
                    (fun _ _ => rfl)] at this
                  rw [← hmx]
                  exact this
                · rw [if_neg hone] at hx
                  rw [decHead_nodes_map _ _ _ _ (fun m => m.ord.id)
                    (fun _ _ => rfl)] at hx
                  exact hx
              exact htrans _ hstep

theorem ids_subset_of_book (e : MatchingEngine) (sym : String)
    (used : List String)
    (h : ∀ nd ∈ (e.getBook sym).nodes, nd.ord.id ∈ used)
    (x : String) (hx : x ∈ (e.getBook sym).nodes.map (fun m => m.ord.id)) :
    x ∈ used := by
  rcases List.mem_map.mp hx with ⟨m, hm, hmx⟩
  rw [← hmx]
  exact h m hm


theorem process_preserves_inv (e : MatchingEngine) (o : Order)
    (used : List String)
    (hInv : ∀ sym, WF (e.getBook sym) ∧ noCross (e.getBook sym) = true ∧
      ∀ nd ∈ (e.getBook sym).nodes, nd.ord.id ∈ used)
    (hfresh : o.id ∉ used) :
    ∀ sym, WF ((process_order e o).getBook sym) ∧
      noCross ((process_order e o).getBook sym) = true ∧
      ∀ nd ∈ ((process_order e o).getBook sym).nodes,
        nd.ord.id ∈ o.id :: used := by
  intro sym
  rw [getBook_process]
  by_cases hsym : sym = o.symbol
  swap
  · rw [if_neg hsym]
    exact ⟨(hInv sym).1, (hInv sym).2.1,
      fun nd hnd => List.mem_cons_of_mem _ ((hInv sym).2.2 nd hnd)⟩
  · rw [if_pos hsym]
    obtain ⟨hWFb, hncb, hidsb⟩ := hInv o.symbol
    have hloopfacts : ∀ cp : Bool,
        WF (matchLoop cp (stdFuel (e.getBook o.symbol)) o (e.getBook o.symbol)
          e.trade_counter).2.1 ∧
        noCross (matchLoop cp (stdFuel (e.getBook o.symbol)) o (e.getBook o.symbol)
          e.trade_counter).2.1 = true ∧
        ∀ nd ∈ (matchLoop cp (stdFuel (e.getBook o.symbol)) o (e.getBook o.symbol)
          e.trade_counter).2.1.nodes, nd.ord.id ∈ o.id :: used := by
      intro cp
      obtain ⟨hWF1, hts1, hsub1, -⟩ :=
        loop_book_facts cp (stdFuel (e.getBook o.symbol)) o (e.getBook o.symbol)
          e.trade_counter hWFb
      refine ⟨hWF1, noCross_shrink _ _ o.side hWFb hts1 hsub1 hncb, ?_⟩
      intro nd hnd
      have h1 := loop_node_ids cp (stdFuel (e.getBook o.symbol)) o
        (e.getBook o.symbol) e.trade_counter nd hnd
      exact List.mem_cons_of_mem _ (ids_subset_of_book e o.symbol used hidsb _ h1)
    have hlimit : WF ((match_limit_order o (e.getBook o.symbol) e.trade_counter).1) ∧
        noCross ((match_limit_order o (e.getBook o.symbol) e.trade_counter).1) = true ∧
        ∀ nd ∈ ((match_limit_order o (e.getBook o.symbol) e.trade_counter).1).nodes,
          nd.ord.id ∈ o.id :: used := by
      unfold match_limit_order
      dsimp only
      obtain ⟨hWF1, hts1, hsub1, hord1⟩ :=
        loop_book_facts true (stdFuel (e.getBook o.symbol)) o (e.getBook o.symbol)
          e.trade_counter hWFb
      obtain ⟨hWF1', hnc1, hids1⟩ := hloopfacts true
      by_cases hrest : 0 < (matchLoop true (stdFuel (e.getBook o.symbol)) o
          (e.getBook o.symbol) e.trade_counter).1.remaining_quantity
      swap
      · rw [if_neg hrest]
        exact ⟨hWF1', hnc1, hids1⟩
      · rw [if_pos hrest]
        have hexit := loop_normal_exit true (stdFuel (e.getBook o.symbol)) o
          (e.getBook o.symbol) e.trade_counter hWFb
          (by unfold stdFuel OrderBook.orderCount; omega)
        have hridneq : ∀ nd ∈ (matchLoop true (stdFuel (e.getBook o.symbol)) o
            (e.getBook o.symbol) e.trade_counter).2.1.nodes,
            nd.ord.id ≠ (matchLoop true (stdFuel (e.getBook o.symbol)) o
              (e.getBook o.symbol) e.trade_counter).1.id := by
          intro nd hnd hEq
          have h1 := loop_node_ids true (stdFuel (e.getBook o.symbol)) o
            (e.getBook o.symbol) e.trade_counter nd hnd
          have h2 : nd.ord.id ∈ used :=
            ids_subset_of_book e o.symbol used hidsb _ h1
          have h3 : (matchLoop true (stdFuel (e.getBook o.symbol)) o
              (e.getBook o.symbol) e.trade_counter).1.id = o.id := by
            rw [hord1]
          rw [hEq, h3] at h2
          exact hfresh h2
        refine ⟨WF_add _ _ hWF1' hrest hridneq, ?_, ?_⟩
        · apply noCross_add_rest _ _ hnc1
          rcases hexit with hz | hempty | ⟨best, lvl, rts, hcs, -, hnm⟩
          · omega
          · left
            have hceq : contra (matchLoop true (stdFuel (e.getBook o.symbol)) o
                (e.getBook o.symbol) e.trade_counter).1.side = contra o.side := by
              rw [hord1]
            rw [hceq]
            exact hempty
          · right
            refine ⟨best, lvl, rts, ?_, hnm⟩
            have hceq : contra (matchLoop true (stdFuel (e.getBook o.symbol)) o
                (e.getBook o.symbol) e.trade_counter).1.side = contra o.side := by
              rw [hord1]
            rw [hceq]
            exact hcs
        · intro nd hnd
          have hperm := add_order_nodes_perm
            (matchLoop true (stdFuel (e.getBook o.symbol)) o (e.getBook o.symbol)
              e.trade_counter).2.1
            (matchLoop true (stdFuel (e.getBook o.symbol)) o (e.getBook o.symbol)
              e.trade_counter).1
          rcases List.mem_cons.mp (hperm.mem_iff.mp hnd) with hnd | hnd
          · rw [hnd]
            have hid3 : (matchLoop true (stdFuel (e.getBook o.symbol)) o
                (e.getBook o.symbol) e.trade_counter).1.id = o.id := by
              rw [hord1]
            simp [hid3]
          · exact hids1 nd hnd
    have hfok : WF ((match_fok_order o (e.getBook o.symbol) e.trade_counter).1) ∧
        noCross ((match_fok_order o (e.getBook o.symbol) e.trade_counter).1) = true ∧
        ∀ nd ∈ ((match_fok_order o (e.getBook o.symbol) e.trade_counter).1).nodes,
          nd.ord.id ∈ o.id :: used := by
      unfold match_fok_order
      by_cases hcf : can_fill_completely o (e.getBook o.symbol)
      · rw [if_pos hcf]
        exact hloopfacts true
      · rw [if_neg hcf]
        exact ⟨hWFb, hncb, fun nd hnd => List.mem_cons_of_mem _ (hidsb nd hnd)⟩
    cases hty : o.type
    · exact hloopfacts false
    · exact hlimit
    · exact hloopfacts true
    · exact hfok

theorem getBook_mk0 (sym : String) :
    MatchingEngine.mk0.getBook sym = OrderBook.empty := by
  unfold MatchingEngine.mk0 MatchingEngine.getBook
  by_cases h : ("BTC-USDT" : String) = sym
  · rw [List.find?_cons_of_pos _ (by simpa using h)]
  · rw [List.find?_cons_of_neg _ (by simpa using h)]
    rfl

theorem run_inv_aux :
    ∀ (os : List Order) (e : MatchingEngine) (used : List String),
    (∀ sym, WF (e.getBook sym) ∧ noCross (e.getBook sym) = true ∧
      ∀ nd ∈ (e.getBook sym).nodes, nd.ord.id ∈ used) →
    (∀ o ∈ os, o.id ∉ used) →
    os.Pairwise (fun a d => a.id ≠ d.id) →
    ∃ used' : List String, ∀ sym, WF ((os.foldl process_order e).getBook sym) ∧
      noCross ((os.foldl process_order e).getBook sym) = true ∧
      ∀ nd ∈ ((os.foldl process_order e).getBook sym).nodes,
        nd.ord.id ∈ used' := by
  intro os
  induction os with
  | nil => intro e used hInv _ _; exact ⟨used, hInv⟩
  | cons o rest ih =>
    intro e used hInv hav hpw
    rcases List.pairwise_cons.mp hpw with ⟨hhead, htail⟩
    apply ih (process_order e o) (o.id :: used)
    · exact process_preserves_inv e o used hInv
        (hav o (List.mem_cons_self _ _))
    · intro o' ho' hmem
      rcases List.mem_cons.mp hmem with hmem | hmem
      · exact hhead o' ho' hmem.symm
      · exact hav o' (List.mem_cons_of_mem _ ho') hmem
    · exact htail

/-- C4: starting from the freshly constructed engine, after any sequence of
process_order calls with pairwise-distinct order ids (every prefix of a run
is itself such a sequence, so this covers the state after every single
return), no symbol's book is crossed: whenever both a best bid and a best
ask exist, best bid < best ask. -/
theorem C4_no_crossed_book (orders : List Order)
    (hids : orders.Pairwise (fun a d => a.id ≠ d.id)) (sym : String) :
    noCross ((runEngine orders).getBook sym) = true := by
  have hbase : ∀ s, WF (MatchingEngine.mk0.getBook s) ∧
      noCross (MatchingEngine.mk0.getBook s) = true ∧
      ∀ nd ∈ (MatchingEngine.mk0.getBook s).nodes, nd.ord.id ∈ ([] : List String) := by
    intro s
    rw [getBook_mk0]
    exact ⟨by decide, by decide, by intro nd hnd; cases hnd⟩
  rcases run_inv_aux orders MatchingEngine.mk0 [] hbase
    (fun o _ h => absurd h (List.not_mem_nil _)) hids with ⟨used', h⟩
  exact (h sym).2.1

theorem C4_no_crossed_book_witness :
    ([⟨"a1", "B", Side.SELL, OrderType.LIMIT, 60001, 10, 10, 1⟩,
      ⟨"b1", "B", Side.BUY, OrderType.LIMIT, 60000, 10, 10, 2⟩,
      ⟨"m1", "B", Side.BUY, OrderType.MARKET, 0, 4, 4, 3⟩] : List Order).Pairwise
      (fun a d => a.id ≠ d.id) ∧
    noCross ((runEngine [⟨"a1", "B", Side.SELL, OrderType.LIMIT, 60001, 10, 10, 1⟩,
      ⟨"b1", "B", Side.BUY, OrderType.LIMIT, 60000, 10, 10, 2⟩,
      ⟨"m1", "B", Side.BUY, OrderType.MARKET, 0, 4, 4, 3⟩]).getBook "B") = true :=
  ⟨by decide,
    C4_no_crossed_book _ (by decide) "B"⟩
